import Mathlib

set_option maxRecDepth 4000

/-!
# Verification of the CourseHelper two-stage hybrid retrieval engine

Shallow embedding of the retrieval core of the repository:

* `src/src/tools/retriever_tool.py` — `_get_stable_doc_key`, `HybridRetriever`
  (`__init__`, `search`);
* `src/src/tools/reranker.py` — `CrossEncoderReranker` (`score`, `rerank`),
  `LLMReranker.rerank`;
* `src/src/ingest/indexer.py` — `BM25Index` (`__init__`, `search`), which
  delegates scoring to the `rank_bm25` library's `BM25Okapi`
  (`_initialize`, `_calc_idf`, `get_scores`), embedded here as well since the
  indexed claims depend on its behaviour.

Modelling conventions:

* Python floats are modelled as exact rationals (`ℚ`); the smoothing constant
  `1e-10` becomes `1 / 10^10`.
* External, non-arithmetical collaborators are function parameters:
  the `jieba` tokenizer (`tokenize`), the truncated-md5 content hash used in
  `_get_stable_doc_key` (`hash`), `math.log` (`log`), the FAISS vector store
  (`vectorSearch` field), and the underlying cross-encoder model's batch
  prediction (`predict` field).  Every theorem quantifies over these, and
  witnesses instantiate them with concrete functions.
* Python's `sorted(..., reverse=True)` / `list.sort(..., reverse=True)` is a
  stable descending sort; it is embedded as the stable insertion sort
  `sortDesc` below.
* Python `dict` (insertion-ordered) becomes an association list with
  first-insertion order preserved (`addScore`).
* Wall-clock durations (`time.time()` differences) are taken as parameters
  (`recallTime`, `rerankTime`); they never influence ranking.
-/

/-- The `langchain_core.documents.Document` type, restricted to the fields the
retrieval core reads: `page_content` plus the metadata keys consulted by
`_get_stable_doc_key` (`source_file`, `page`, `chunk_id`).  `none` models an
absent metadata key. -/
structure Document where
  page_content : String
  source_file : Option String := none
  page : Option Nat := none
  chunk_id : Option String := none
deriving DecidableEq, Repr, Inhabited

/-- Embeds `_get_stable_doc_key` (retriever_tool.py lines 31–58).  `hash` stands for
`lambda s: hashlib.md5(s.encode()).hexdigest()[:8]`, the truncated md5 of the
120-character content prefix; it is a parameter because md5 is not
arithmetically embeddable, and no claim depends on its values. -/
def getStableDocKey (hash : String → String) (doc : Document) : String :=
  let source_file := doc.source_file.getD "unknown"
  let page := doc.page.getD 0
  match doc.chunk_id with
  | some cid => s!"{source_file}:{page}:{cid}"
  | none =>
      let content_prefix := doc.page_content.take 120
      let content_hash := hash content_prefix
      s!"{source_file}:{page}:{content_hash}"

/-- The float literal `1e-10` used to guard both normalizations in
`HybridRetriever.search`. -/
def smoothEps : ℚ := 1 / 10 ^ 10

/-! ## Stable descending sort

Embeds Python's stable sorts with `reverse=True`
(`sorted(..., key=..., reverse=True)` in `HybridRetriever.search` and
`BM25Index.search`; `list.sort(key=..., reverse=True)` in
`CrossEncoderReranker.rerank`).  Ties keep the original order. -/

/-- Insert `x` into `l` before the first element whose key is `≤ key x`
(so among equal keys the earlier-inserted element, i.e. the one earlier in
the original list, stays first). -/
def insertDesc (key : α → ℚ) (x : α) : List α → List α
  | [] => [x]
  | y :: ys => if key y ≤ key x then x :: y :: ys else y :: insertDesc key x ys

/-- Stable descending insertion sort by `key`. -/
def sortDesc (key : α → ℚ) : List α → List α
  | [] => []
  | x :: xs => insertDesc key x (sortDesc key xs)

/-! ## The fusion score dictionary

`doc_scores: Dict[str, Tuple[Document, float]]` in `HybridRetriever.search`
(lines 136–173).  A Python `dict` preserves insertion order, keeps the first
document stored under a key, and accumulates the score; it is embedded as an
association list with exactly those operations. -/

/-- One entry of `doc_scores`: key, representative document, accumulated
fused score. -/
abbrev ScoreEntry := String × Document × ℚ

/-- The body of both fusion loops: `if doc_key not in doc_scores:` insert
`(doc, 0.0)` at the end (Python dicts append new keys), then add `delta` to
the stored score, keeping the first-seen document. -/
def addScore : List ScoreEntry → String → Document → ℚ → List ScoreEntry
  | [], k, d, delta => [(k, d, delta)]
  | e :: rest, k, d, delta =>
      if e.1 = k then (e.1, e.2.1, e.2.2 + delta) :: rest
      else e :: addScore rest k d delta

/-- Keys of the score dictionary, in insertion order. -/
def entryKeys (m : List ScoreEntry) : List String := m.map (·.1)

/-- Reads `doc_scores[k][1]`, defaulting to `0` for an absent key (matching the
`doc_scores[doc_key] = (doc, 0.0)` initialisation on first sight). -/
def scoreOf (m : List ScoreEntry) (k : String) : ℚ :=
  match m with
  | [] => 0
  | e :: rest => if e.1 = k then e.2.2 else scoreOf rest k

/-! ## CrossEncoderReranker (reranker.py lines 30–224)

The loaded scoring model is opaque: `available` models
`not (self.model is None and not self.use_transformers)` — i.e. whether
`_load_model` succeeded — and `predict` models the underlying batch scoring
call (`CrossEncoder.predict` or the transformers path); `.error` means that
call raised. -/

structure CrossEncoderReranker where
  available : Bool
  predict : List (String × String) → Except Unit (List ℚ)
  batch_size : Nat := 32

/-- The `(query, doc.page_content[:512])` pairs prepared by `score`. -/
def scorePairs (query : String) (documents : List Document) :
    List (String × String) :=
  documents.map (fun doc => (query, doc.page_content.take 512))

/-- Embeds `CrossEncoderReranker.score` (lines 110–193).  Raises (`.error`) only
when the model is unavailable; any exception raised by the underlying
scoring call is caught and replaced by the uniform score `0.5` for every
candidate. -/
def CrossEncoderReranker.score (r : CrossEncoderReranker) (query : String)
    (documents : List Document) : Except String (List ℚ) :=
  if ¬ r.available then
    .error "Reranker model not loaded. Cannot score documents."
  else if documents = [] then .ok []
  else
    match r.predict (scorePairs query documents) with
    | .ok scores => .ok scores
    | .error _ => .ok (List.replicate documents.length (1/2))

/-- Embeds `CrossEncoderReranker.rerank` (lines 195–224).  When the model is
unavailable or there are no candidates it returns `documents[:top_k]`
without calling `score`; otherwise — since `score` cannot raise once the
model is available, the `.error` arm below is unreachable — it stable-sorts
`zip(documents, scores)` by score descending and returns the top-k
documents. -/
def CrossEncoderReranker.rerank (r : CrossEncoderReranker) (query : String)
    (documents : List Document) (top_k : Nat) : List Document :=
  if ¬ r.available ∨ documents = [] then documents.take top_k
  else
    let scores := match r.score query documents with
      | .ok s => s
      | .error _ => []
    let scored_docs := documents.zip scores
    let sorted := sortDesc (fun p => p.2) scored_docs
    (sorted.take top_k).map (fun p => p.1)

/-! ## LLMReranker (reranker.py lines 227–292)

The language model is opaque: its rerank-time behaviour is the data
`llm : Option (Except Unit String)` — `none` models `self.llm is None`,
`some (.error ())` models `llm.invoke` raising (caught by the outer
`except`), and `some (.ok content)` models a response whose extracted text
is `content`. -/

/-- Python's `str.split(',')` on the character list: split at every comma,
keeping empty fields. -/
def splitComma : List Char → List (List Char)
  | [] => [[]]
  | c :: cs =>
      if c = ',' then [] :: splitComma cs
      else
        match splitComma cs with
        | [] => [[c]]
        | t :: ts => (c :: t) :: ts

/-- Runs `content.split(',')`, as strings. -/
def pySplitComma (s : String) : List String :=
  (splitComma s.data).map (fun cs => String.mk cs)

/-- The whitespace characters `str.strip()` removes. -/
def isPySpace (c : Char) : Bool :=
  c = ' ' || c = '\t' || c = '\n' || c = '\r' || c = '\x0b' || c = '\x0c'

/-- Python's `str.strip()`: drop whitespace from both ends. -/
def pyStrip (cs : List Char) : List Char :=
  ((cs.dropWhile isPySpace).reverse.dropWhile isPySpace).reverse

/-- Python's `int(s)`: after stripping, an optional sign followed by one or
more decimal digits; anything else raises `ValueError` (`none`).  (Python
additionally allows single underscores between digit groups; no claim
depends on such inputs and they are not modelled.) -/
def pyParseInt (s : String) : Option Int :=
  let t := pyStrip s.data
  match t with
  | '-' :: core =>
      if core ≠ [] ∧ core.all Char.isDigit then
        some (-(core.foldl (fun acc c => acc * 10 + (c.toNat - 48)) 0 : Nat) : Int)
      else none
  | '+' :: core =>
      if core ≠ [] ∧ core.all Char.isDigit then
        some ((core.foldl (fun acc c => acc * 10 + (c.toNat - 48)) 0 : Nat) : Int)
      else none
  | core =>
      if core ≠ [] ∧ core.all Char.isDigit then
        some ((core.foldl (fun acc c => acc * 10 + (c.toNat - 48)) 0 : Nat) : Int)
      else none

/-- Evaluate `pyParseInt` across a token list; `none` as soon as any token
fails (the `ValueError` aborting the whole list comprehension). -/
def mapPyInt : List String → Option (List Int)
  | [] => some []
  | x :: xs =>
      match pyParseInt x with
      | none => none
      | some v =>
          match mapPyInt xs with
          | none => none
          | some vs => some (v :: vs)

/-- Embeds `[int(x.strip()) for x in content.split(',')[:top_k]]` — `none` when any
of the first `top_k` comma-separated tokens fails `int()` (the `ValueError`
caught by the inner `except`). -/
def parseRankIndices (content : String) (top_k : Nat) : Option (List Int) :=
  mapPyInt ((pySplitComma content).take top_k)

/-- Embeds `[documents[i] for i in indices if 0 <= i < len(documents)]`. -/
def selectInRange (documents : List Document) (indices : List Int) :
    List Document :=
  indices.filterMap (fun i =>
    if 0 ≤ i ∧ i < (documents.length : Int) then documents.get? i.toNat
    else none)

/-- Embeds `LLMReranker.rerank` (lines 246–292). -/
def LLMReranker.rerank (llm : Option (Except Unit String)) (query : String)
    (documents : List Document) (top_k : Nat) : List Document :=
  match llm with
  | none => documents.take top_k
  | some (.error _) => documents.take top_k
  | some (.ok content) =>
      if documents = [] then documents.take top_k
      else
        match parseRankIndices content top_k with
        | none => documents.take top_k
        | some indices =>
            let reranked := selectInRange documents indices
            if reranked = [] then documents.take top_k
            else reranked.take top_k

/-! ## BM25 (indexer.py lines 15–73, plus `rank_bm25`'s `BM25Okapi`)

`BM25Index` wraps the `rank_bm25` library's `BM25Okapi`, which is embedded
here as well because the claims about lexical search depend on its
behaviour.  Two opaque externals are parameters: `tokenize` models
`_tokenize` (`jieba.cut_for_search(text.lower())`), and `log` models
`math.log` on positive rationals. -/

/-- The per-document token frequency dictionary built by
`BM25._initialize` (`frequencies[word] += 1`), insertion-ordered. -/
def countTokens (tokens : List String) : List (String × Nat) :=
  tokens.foldl (fun acc w =>
    if acc.any (fun p => p.1 = w) then
      acc.map (fun p => if p.1 = w then (p.1, p.2 + 1) else p)
    else acc ++ [(w, 1)]) []

/-- Dictionary lookup with a default (`d.get(k) or dflt` for numeric
values, where a stored `0` and an absent key both yield `dflt = 0`). -/
def lookupD (l : List (String × α)) (k : String) (dflt : α) : α :=
  match l.find? (fun p => p.1 = k) with
  | some p => p.2
  | none => dflt

/-- Runs `nd[word] += 1` with insertion on first sight (`BM25._initialize`). -/
def bumpCount (nd : List (String × Nat)) (w : String) : List (String × Nat) :=
  if nd.any (fun p => p.1 = w) then
    nd.map (fun p => if p.1 = w then (p.1, p.2 + 1) else p)
  else nd ++ [(w, 1)]

/-- The state of a constructed `BM25Okapi` object (fields as assigned by
`__init__` / `_initialize` / `_calc_idf`; `k1 = 1.5`, `b = 0.75`,
`epsilon = 0.25` are the constructor defaults, which `BM25Index` uses). -/
structure BM25Okapi where
  k1 : ℚ := 3 / 2
  b : ℚ := 3 / 4
  epsilon : ℚ := 1 / 4
  corpus_size : Nat
  avgdl : ℚ
  doc_freqs : List (List (String × Nat))
  idf : List (String × ℚ)
  doc_len : List ℚ
  average_idf : ℚ

/-- Embeds `BM25Okapi.__init__` over an already-tokenized corpus.  Returns
`.error` where Python raises: `avgdl = num_doc / self.corpus_size` raises
`ZeroDivisionError` on an empty corpus, and
`self.average_idf = idf_sum / len(self.idf)` raises it when no word occurs
in any document. -/
def BM25Okapi.build (log : ℚ → ℚ) (corpus : List (List String)) :
    Except String BM25Okapi :=
  if corpus.length = 0 then
    .error "ZeroDivisionError: division by zero (avgdl)"
  else
    let corpus_size := corpus.length
    let doc_len : List ℚ := corpus.map (fun d => (d.length : ℚ))
    let num_doc : ℚ := ((corpus.map List.length).sum : ℕ)
    let doc_freqs := corpus.map countTokens
    let nd : List (String × Nat) :=
      doc_freqs.foldl (fun nd freqs => freqs.foldl (fun nd p => bumpCount nd p.1) nd) []
    let avgdl := num_doc / (corpus_size : ℚ)
    if nd.length = 0 then
      .error "ZeroDivisionError: division by zero (average_idf)"
    else
      let idf0 : List (String × ℚ) := nd.map (fun p =>
        (p.1, log ((corpus_size : ℚ) - (p.2 : ℚ) + 1 / 2) - log ((p.2 : ℚ) + 1 / 2)))
      let idf_sum := (idf0.map (fun p => p.2)).sum
      let average_idf := idf_sum / ((idf0.length : ℚ))
      let negEps := (1 / 4 : ℚ) * average_idf
      let idf := idf0.map (fun p => if p.2 < 0 then (p.1, negEps) else p)
      .ok { corpus_size := corpus_size, avgdl := avgdl, doc_freqs := doc_freqs,
            idf := idf, doc_len := doc_len, average_idf := average_idf }

/-- Embeds `BM25Okapi.get_scores`: starts from `np.zeros(self.corpus_size)` and,
for each query token, adds the per-document BM25 term.  An empty query
therefore yields the all-zero score vector. -/
def BM25Okapi.get_scores (bm : BM25Okapi) (query : List String) : List ℚ :=
  query.foldl (fun score q =>
    List.zipWith (fun (s : ℚ) (p : List (String × Nat) × ℚ) =>
      let f : ℚ := (lookupD p.1 q 0 : ℕ)
      s + lookupD bm.idf q 0 *
        (f * (bm.k1 + 1) / (f + bm.k1 * (1 - bm.b + bm.b * p.2 / bm.avgdl))))
      score (bm.doc_freqs.zip bm.doc_len))
    (List.replicate bm.corpus_size 0)

/-- The `BM25Index` class (indexer.py lines 15–35): the stored document list plus the
wrapped `BM25Okapi`. -/
structure BM25Index where
  documents : List Document
  bm25 : BM25Okapi

/-- Embeds `BM25Index.__init__`: tokenize every document and build the BM25
scorer; construction fails exactly where `BM25Okapi.__init__` raises. -/
def BM25Index.build (tokenize : String → List String) (log : ℚ → ℚ)
    (documents : List Document) : Except String BM25Index :=
  match BM25Okapi.build log (documents.map (fun d => tokenize d.page_content)) with
  | .ok bm => .ok { documents := documents, bm25 := bm }
  | .error e => .error e

/-- Embeds `BM25Index.search` (indexer.py lines 51–73): score every corpus
document, stable-sort the indices by score descending
(`sorted(range(len(scores)), key=lambda i: scores[i], reverse=True)`), take
the first `top_k`, and return the `(document, score)` pairs.  There is no
failure path. -/
def BM25Index.search (idx : BM25Index) (tokenize : String → List String)
    (query : String) (top_k : Nat) : List (Document × ℚ) :=
  let query_tokens := tokenize query
  let scores := idx.bm25.get_scores query_tokens
  let top_indices :=
    (sortDesc (fun i => scores.getD i 0) (List.range scores.length)).take top_k
  top_indices.map (fun i => (idx.documents.getD i default, scores.getD i 0))

/-! ## HybridRetriever (retriever_tool.py lines 61–228)

The FAISS vector store and the BM25 index enter `search` only through their
search methods (`similarity_search_with_score(query, k)` returning
`(Document, distance)` pairs and `BM25Index.search(query, top_k)` returning
`(Document, score)` pairs), so both are stored as functions; the intended
instantiation of `bm25_index` is `fun q k => idx.search tokenize q k` for a
built `BM25Index idx`. -/

structure HybridRetriever where
  vectorstore : String → Nat → List (Document × ℚ)
  bm25_index : String → Nat → List (Document × ℚ)
  vector_weight : ℚ := 13 / 20
  bm25_weight : ℚ := 7 / 20
  top_k : Nat := 4
  reranker : Option CrossEncoderReranker := none
  top_n_candidates : Nat := 32
  last_recall_time : ℚ := 0
  last_rerank_time : ℚ := 0

/-- Embeds `HybridRetriever.__init__` (lines 68–100).
`self.top_n_candidates = top_n_candidates or (top_k * 8)`: Python's `or`
falls back to the default when the argument is `None` *or* `0`. -/
def HybridRetriever.init
    (vectorstore bm25_index : String → Nat → List (Document × ℚ))
    (vector_weight : ℚ := 13 / 20) (bm25_weight : ℚ := 7 / 20)
    (top_k : Nat := 4) (reranker : Option CrossEncoderReranker := none)
    (top_n_candidates : Option Nat := none) : HybridRetriever :=
  { vectorstore := vectorstore
    bm25_index := bm25_index
    vector_weight := vector_weight
    bm25_weight := bm25_weight
    top_k := top_k
    reranker := reranker
    top_n_candidates :=
      match top_n_candidates with
      | some n => if n = 0 then top_k * 8 else n
      | none => top_k * 8
    last_recall_time := 0
    last_rerank_time := 0 }

/-- Runs `max(score for _, score in results)`. -/
def maxSnd : List (Document × ℚ) → ℚ
  | [] => 0
  | p :: ps => ps.foldl (fun a q => max a q.2) p.2

/-- Runs `min(score for _, score in results)`. -/
def minSnd : List (Document × ℚ) → ℚ
  | [] => 0
  | p :: ps => ps.foldl (fun a q => min a q.2) p.2

/-- The vector-distance normalization of `search` (lines 144–146):
`1 - (score - min_vector_score) / (vector_range + 1e-10)`. -/
def vectorNorm (min_vector_score vector_range dist : ℚ) : ℚ :=
  1 - (dist - min_vector_score) / (vector_range + smoothEps)

/-- Fusion stage of `HybridRetriever.search` (lines 136–173): builds the
`doc_scores` dictionary, processing vector results first and BM25 results
second, each guarded by a non-emptiness check. -/
def HybridRetriever.fuse (r : HybridRetriever) (hash : String → String)
    (vector_results bm25_results : List (Document × ℚ)) : List ScoreEntry :=
  let m1 :=
    if vector_results = [] then ([] : List ScoreEntry)
    else
      let max_vector_score := maxSnd vector_results
      let min_vector_score := minSnd vector_results
      let vector_range := max_vector_score - min_vector_score
      vector_results.foldl (fun m p =>
        addScore m (getStableDocKey hash p.1) p.1
          (vectorNorm min_vector_score vector_range p.2 * r.vector_weight)) []
  if bm25_results = [] then m1
  else
    let max_bm25_score := maxSnd bm25_results
    bm25_results.foldl (fun m p =>
      addScore m (getStableDocKey hash p.1) p.1
        (p.2 / (max_bm25_score + smoothEps) * r.bm25_weight)) m1

/-- Runs `sorted(doc_scores.values(), key=lambda x: x[1], reverse=True)`
(lines 176–180). -/
def HybridRetriever.sortedCandidates (r : HybridRetriever)
    (hash : String → String)
    (vector_results bm25_results : List (Document × ℚ)) :
    List (Document × ℚ) :=
  sortDesc (fun x => x.2) ((r.fuse hash vector_results bm25_results).map (fun e => e.2))

/-- Runs `candidate_docs = [doc for doc, _ in sorted_candidates]` (line 186). -/
def HybridRetriever.candidateDocs (r : HybridRetriever)
    (hash : String → String)
    (vector_results bm25_results : List (Document × ℚ)) : List Document :=
  (r.sortedCandidates hash vector_results bm25_results).map (fun x => x.1)

/-- Embeds `HybridRetriever.search` (lines 102–228), returning the updated object
state together with `final_docs`.  `recallTime` and `rerankTime` stand for
the measured wall-clock durations of the two stages; the embedded
`CrossEncoderReranker.rerank` is total, so the `except` fallback around it
(lines 211–214) is never taken. -/
def HybridRetriever.search (r : HybridRetriever) (hash : String → String)
    (query : String) (recallTime rerankTime : ℚ) :
    HybridRetriever × List Document :=
  let recall_k := max r.top_n_candidates (r.top_k * 4)
  let vector_results := r.vectorstore query recall_k
  let bm25_results := r.bm25_index query recall_k
  let candidate_docs := r.candidateDocs hash vector_results bm25_results
  let r1 := { r with last_recall_time := recallTime }
  match r.reranker with
  | some rr =>
      if candidate_docs.length > r.top_k then
        let rerank_candidates := candidate_docs.take r.top_n_candidates
        let reranked_docs := rr.rerank query rerank_candidates r.top_k
        ({ r1 with last_rerank_time := rerankTime }, reranked_docs)
      else ({ r1 with last_rerank_time := 0 }, candidate_docs.take r.top_k)
  | none => ({ r1 with last_rerank_time := 0 }, candidate_docs.take r.top_k)

/-! ## Concrete fixtures used by witnesses and counterexamples -/

/-- Identity stand-in for the truncated-md5 content hash (any function
works; equal prefixes give equal keys either way). -/
def hashId : String → String := fun s => s

/-- Concrete stand-in for `jieba.cut_for_search`: the empty string
tokenizes to the empty token list (as jieba does), anything else to one
token. -/
def tokStub : String → List String := fun s => if s = "" then [] else ["w"]

/-- Concrete stand-in for `math.log` (its values are irrelevant to every
claim settled against it). -/
def logStub : ℚ → ℚ := fun _ => 0

def docA : Document := { page_content := "A content", source_file := some "x.pdf", page := some 0 }

def docB : Document := { page_content := "B content", source_file := some "y.pdf", page := some 2 }

def docC : Document := { page_content := "C content" }

def docOne : Document := { page_content := "first passage" }

def docTwo : Document := { page_content := "second passage" }

/-- A `BM25Index` object in the (unconstructible-through-`build`) state of
holding zero chunks. -/
def emptyBM25 : BM25Index :=
  { documents := []
    bm25 := { corpus_size := 0, avgdl := 0, doc_freqs := [], idf := [],
              doc_len := [], average_idf := 0 } }

/-! ## C1: the fusion scenario -/

/-- The retriever of the spec's fusion scenario: `vector_weight = 0.65`,
`bm25_weight = 0.35`, no reranker; the two sub-searches return the
scenario's fixed result lists. -/
def scenarioRetriever : HybridRetriever :=
  { vectorstore := fun _ _ => [(docB, 1 / 10), (docA, 9 / 10)]
    bm25_index := fun _ _ => [(docA, 5), (docB, 1)]
    vector_weight := 13 / 20
    bm25_weight := 7 / 20
    top_k := 4
    reranker := none
    top_n_candidates := 32 }

/-! ## C5: rerank gating -/

/-- A configured reranker object whose model failed to load. -/
def unavailableReranker : CrossEncoderReranker :=
  { available := false, predict := fun _ => .error () }

/-- The retriever exhibiting the gating counterexample:
`top_n_candidates = 1 < top_k = 2`, an unavailable-but-configured reranker,
and three fused candidates. -/
def gateRetriever : HybridRetriever :=
  { vectorstore := fun _ _ => [(docA, 0), (docB, 1), (docC, 2)]
    bm25_index := fun _ _ => []
    vector_weight := 1
    bm25_weight := 1
    top_k := 2
    reranker := some unavailableReranker
    top_n_candidates := 1 }

/-- The key/document shape of the score dictionary. -/
def entryShape (m : List ScoreEntry) : List (String × Document) :=
  m.map (fun e => (e.1, e.2.1))

/-- The retriever used to witness weight monotonicity: one vector-only
chunk (`docA`) and one lexical-only chunk (`docB`), equal weights. -/
def monoRetriever : HybridRetriever :=
  { vectorstore := fun _ _ => [(docA, 1)]
    bm25_index := fun _ _ => [(docB, 3)]
    vector_weight := 1 / 2
    bm25_weight := 1 / 2
    top_k := 4
    reranker := none
    top_n_candidates := 32 }

/-! ## Lemmas and claim theorems -/

theorem insertDesc_perm (key : α → ℚ) (x : α) (l : List α) :
    List.Perm (insertDesc key x l) (x :: l) := by
  induction l with
  | nil => simp [insertDesc]
  | cons y ys ih =>
      by_cases h : key y ≤ key x
      · simp [insertDesc, h]
      · simp only [insertDesc, if_neg h]
        exact ((ih.cons y).trans (List.Perm.swap x y ys))

theorem sortDesc_perm (key : α → ℚ) (l : List α) : List.Perm (sortDesc key l) l := by
  induction l with
  | nil => simp [sortDesc]
  | cons x xs ih => exact (insertDesc_perm key x (sortDesc key xs)).trans (ih.cons x)

theorem insertDesc_pairwise (key : α → ℚ) (x : α) (l : List α)
    (h : l.Pairwise (fun a b => key b ≤ key a)) :
    (insertDesc key x l).Pairwise (fun a b => key b ≤ key a) := by
  induction l with
  | nil => simp [insertDesc]
  | cons y ys ih =>
      rcases List.pairwise_cons.mp h with ⟨hy, hys⟩
      by_cases hxy : key y ≤ key x
      · simp only [insertDesc, if_pos hxy]
        refine List.pairwise_cons.mpr ⟨?_, h⟩
        intro b hb
        rcases List.mem_cons.mp hb with hb | hb
        · exact hb ▸ hxy
        · exact le_trans (hy b hb) hxy
      · simp only [insertDesc, if_neg hxy]
        refine List.pairwise_cons.mpr ⟨?_, ih hys⟩
        intro b hb
        have hb2 := (insertDesc_perm key x ys).mem_iff.mp hb
        rcases List.mem_cons.mp hb2 with hb3 | hb3
        · subst hb3; exact le_of_not_le hxy
        · exact hy b hb3

/-- The output of `sortDesc` is non-increasing in `key`. -/
theorem sortDesc_pairwise (key : α → ℚ) (l : List α) :
    (sortDesc key l).Pairwise (fun a b => key b ≤ key a) := by
  induction l with
  | nil => simp [sortDesc]
  | cons x xs ih => exact insertDesc_pairwise key x (sortDesc key xs) ih

theorem sublist_insertDesc (key : α → ℚ) (x : α) (l : List α) :
    l.Sublist (insertDesc key x l) := by
  induction l with
  | nil => simp [insertDesc]
  | cons y ys ih =>
      by_cases h : key y ≤ key x
      · simp only [insertDesc, if_pos h]
        exact (List.sublist_cons_self x (y :: ys))
      · simp only [insertDesc, if_neg h]
        exact ih.cons₂ y

theorem sublist_insertDesc_of_sublist (key : α → ℚ) (x : α) {s l : List α}
    (h : s.Sublist l) : s.Sublist (insertDesc key x l) :=
  h.trans (sublist_insertDesc key x l)

/-- Inserting `a` in front of a list containing `b` with `key b ≤ key a`
places `a` before `b`. -/
theorem pair_sublist_insertDesc (key : α → ℚ) {a b : α} {l : List α}
    (hb : b ∈ l) (hab : key b ≤ key a) :
    [a, b].Sublist (insertDesc key a l) := by
  induction l with
  | nil => cases hb
  | cons z zs ih =>
      by_cases hz : key z ≤ key a
      · simp only [insertDesc, if_pos hz]
        exact (List.singleton_sublist.mpr hb).cons₂ a
      · simp only [insertDesc, if_neg hz]
        rcases List.mem_cons.mp hb with hbz | hbz
        · exact absurd (hbz ▸ hab) hz
        · exact (ih hbz).cons z

/-- Stability: if `a` occurs before `b` in the input and `key b ≤ key a`,
then `a` occurs before `b` in the sorted output. -/
theorem pair_sublist_sortDesc (key : α → ℚ) {a b : α} {l : List α}
    (h : [a, b].Sublist l) (hab : key b ≤ key a) :
    [a, b].Sublist (sortDesc key l) := by
  induction l with
  | nil => cases h
  | cons y ys ih =>
      cases h with
      | cons _ h2 =>
          exact sublist_insertDesc_of_sublist key y (ih h2)
      | cons₂ _ h2 =>
          -- here the head is `a` itself and `b ∈ ys`
          have hb : b ∈ sortDesc key ys :=
            (sortDesc_perm key ys).mem_iff.mpr (List.singleton_sublist.mp h2)
          simpa only [sortDesc] using pair_sublist_insertDesc key hb hab

/-- A sort over elements with all keys equal is the identity (the behaviour
Python guarantees for a stable sort with constant keys). -/
theorem sortDesc_const_key (key : α → ℚ) (c : ℚ) (l : List α)
    (h : ∀ a ∈ l, key a = c) : sortDesc key l = l := by
  induction l with
  | nil => rfl
  | cons x xs ih =>
      have hxs : sortDesc key xs = xs := ih (fun a ha => h a (List.mem_cons_of_mem x ha))
      simp only [sortDesc, hxs]
      cases xs with
      | nil => rfl
      | cons y ys =>
          have hx : key x = c := h x (List.mem_cons_self x _)
          have hy : key y = c := h y (List.mem_cons_of_mem x (List.mem_cons_self y ys))
          simp [insertDesc, hx, hy]

theorem entryKeys_cons (e : ScoreEntry) (m : List ScoreEntry) :
    entryKeys (e :: m) = e.1 :: entryKeys m := rfl

theorem entryKeys_addScore_of_mem (m : List ScoreEntry) (k : String)
    (d : Document) (delta : ℚ) (h : k ∈ entryKeys m) :
    entryKeys (addScore m k d delta) = entryKeys m := by
  induction m with
  | nil => cases h
  | cons e rest ih =>
      by_cases hk : e.1 = k
      · simp [addScore, hk, entryKeys]
      · have h1 : k ∈ entryKeys rest := by
          rcases List.mem_cons.mp h with h1 | h1
          · exact absurd h1.symm hk
          · exact h1
        calc entryKeys (addScore (e :: rest) k d delta)
            = e.1 :: entryKeys (addScore rest k d delta) := by
              simp [addScore, hk, entryKeys]
          _ = e.1 :: entryKeys rest := by rw [ih h1]
          _ = entryKeys (e :: rest) := rfl

theorem entryKeys_addScore_of_not_mem (m : List ScoreEntry) (k : String)
    (d : Document) (delta : ℚ) (h : k ∉ entryKeys m) :
    entryKeys (addScore m k d delta) = entryKeys m ++ [k] := by
  induction m with
  | nil => simp [addScore, entryKeys]
  | cons e rest ih =>
      have hk : e.1 ≠ k := fun he => h (by
        rw [entryKeys_cons, he]; exact List.mem_cons_self _ _)
      have hrest : k ∉ entryKeys rest := fun hr => h (by
        rw [entryKeys_cons]; exact List.mem_cons_of_mem _ hr)
      calc entryKeys (addScore (e :: rest) k d delta)
          = e.1 :: entryKeys (addScore rest k d delta) := by
            simp [addScore, hk, entryKeys]
        _ = e.1 :: (entryKeys rest ++ [k]) := by rw [ih hrest]
        _ = entryKeys (e :: rest) ++ [k] := rfl

/-- Adding a delta through `addScore` changes the looked-up score of `k'` by `delta` exactly when
`k' = k`, and leaves every other key's score unchanged. -/
theorem scoreOf_addScore (m : List ScoreEntry) (k : String) (d : Document)
    (delta : ℚ) (k' : String) :
    scoreOf (addScore m k d delta) k' =
      scoreOf m k' + if k = k' then delta else 0 := by
  induction m with
  | nil =>
      by_cases h : k = k'
      · simp [addScore, scoreOf, h]
      · simp [addScore, scoreOf, h, fun hh : k' = k => h hh.symm]
  | cons e rest ih =>
      by_cases hek : e.1 = k
      · by_cases hk' : e.1 = k'
        · have hkk : k = k' := hek ▸ hk'
          simp [addScore, scoreOf, hek, hk', hkk]
        · have hkk : ¬ (k = k') := fun hh => hk' (hek.trans hh)
          simp [addScore, scoreOf, hek, hk', hkk]
      · by_cases hk' : e.1 = k'
        · have h1 : ¬ (k' = k) := fun hh => hek (hk'.trans hh)
          have h2 : ¬ (k = k') := fun hh => h1 hh.symm
          simp [addScore, scoreOf, hek, hk', h1, h2]
        · simp [addScore, scoreOf, hek, hk', ih]

/-- The stored document of an entry is never replaced by `addScore`, and a
new key stores the document it was first seen with. -/
theorem addScore_preserves_docs (m : List ScoreEntry) (k : String)
    (d : Document) (delta : ℚ) :
    (addScore m k d delta).map (fun e => (e.1, e.2.1)) =
      if k ∈ entryKeys m then m.map (fun e => (e.1, e.2.1))
      else m.map (fun e => (e.1, e.2.1)) ++ [(k, d)] := by
  induction m with
  | nil => simp [addScore, entryKeys]
  | cons e rest ih =>
      by_cases hek : e.1 = k
      · have hmem : k ∈ entryKeys (e :: rest) := by
          rw [entryKeys_cons, hek]; exact List.mem_cons_self _ _
        simp [addScore, entryKeys, hek, hmem]
      · have hiff : k ∈ entryKeys (e :: rest) ↔ k ∈ entryKeys rest := by
          rw [entryKeys_cons]
          constructor
          · intro hh
            rcases List.mem_cons.mp hh with hh | hh
            · exact absurd hh.symm hek
            · exact hh
          · exact List.mem_cons_of_mem _
        by_cases hmem : k ∈ entryKeys rest
        · rw [if_pos (hiff.mpr hmem)]
          simp only [addScore, if_neg hek, List.map_cons]
          rw [ih, if_pos hmem]
        · rw [if_neg (fun hh => hmem (hiff.mp hh))]
          simp only [addScore, if_neg hek, List.map_cons]
          rw [ih, if_neg hmem]
          rfl

theorem addScore_entry_consistent (hash : String → String)
    (m : List ScoreEntry) (d : Document) (delta : ℚ)
    (h1 : ∀ e ∈ m, e.1 = getStableDocKey hash e.2.1) :
    ∀ e ∈ addScore m (getStableDocKey hash d) d delta,
      e.1 = getStableDocKey hash e.2.1 := by
  induction m with
  | nil =>
      intro e he
      simp only [addScore, List.mem_singleton] at he
      subst he; rfl
  | cons f rest ih =>
      intro e he
      by_cases hf : f.1 = getStableDocKey hash d
      · simp only [addScore, if_pos hf] at he
        rcases List.mem_cons.mp he with he | he
        · subst he; simpa using h1 f (List.mem_cons_self _ _)
        · exact h1 e (List.mem_cons_of_mem _ he)
      · simp only [addScore, if_neg hf] at he
        rcases List.mem_cons.mp he with he | he
        · rw [he]; exact h1 f (List.mem_cons_self _ _)
        · exact ih (fun x hx => h1 x (List.mem_cons_of_mem _ hx)) e he

theorem entryKeys_nodup_addScore (m : List ScoreEntry) (k : String)
    (d : Document) (delta : ℚ) (h2 : (entryKeys m).Nodup) :
    (entryKeys (addScore m k d delta)).Nodup := by
  by_cases hmem : k ∈ entryKeys m
  · rw [entryKeys_addScore_of_mem _ _ _ _ hmem]; exact h2
  · rw [entryKeys_addScore_of_not_mem _ _ _ _ hmem]
    refine List.nodup_append.mpr ⟨h2, List.nodup_singleton _, ?_⟩
    intro x hx hxk
    rw [List.mem_singleton] at hxk
    exact hmem (hxk ▸ hx)

theorem score_ok_of_available (r : CrossEncoderReranker) (query : String)
    (documents : List Document) (h : r.available = true) :
    ∃ s, r.score query documents = .ok s := by
  by_cases hd : documents = []
  · exact ⟨[], by simp [CrossEncoderReranker.score, h, hd]⟩
  · cases hp : r.predict (scorePairs query documents) with
    | ok s => exact ⟨s, by simp [CrossEncoderReranker.score, h, hd, hp]⟩
    | error e =>
        exact ⟨List.replicate documents.length (1/2), by
          simp [CrossEncoderReranker.score, h, hd, hp]⟩

/-! ## Supporting lemmas -/

theorem zip_replicate_snd (l : List Document) (c : ℚ) :
    ∀ p ∈ l.zip (List.replicate l.length c), p.2 = c := by
  intro p hp
  exact List.eq_of_mem_replicate (List.of_mem_zip hp).2

theorem map_fst_zip_sublist (l1 : List Document) (l2 : List ℚ) :
    ((l1.zip l2).map Prod.fst).Sublist l1 := by
  induction l1 generalizing l2 with
  | nil => simp
  | cons x xs ih =>
      cases l2 with
      | nil => simp
      | cons y ys => simpa using (ih ys).cons₂ x

/-- The embedded `CrossEncoderReranker.rerank` always returns at most `top_k`
documents. -/
theorem rerank_length_le (r : CrossEncoderReranker) (query : String)
    (documents : List Document) (top_k : Nat) :
    (r.rerank query documents top_k).length ≤ top_k := by
  unfold CrossEncoderReranker.rerank
  by_cases h : ¬ r.available ∨ documents = []
  · rw [if_pos h]
    exact le_trans (List.length_take_le _ _) (le_refl _)
  · rw [if_neg h]
    simp only [List.length_map]
    exact List.length_take_le _ _

/-- Every document returned by `rerank` is one of the input candidates,
with multiplicity: the output is a sublist of a permutation of the input.
Stated through `Pairwise`: any symmetric pairwise property of the input
candidate list survives reranking. -/
theorem rerank_pairwise (r : CrossEncoderReranker) (query : String)
    (documents : List Document) (top_k : Nat)
    (P : Document → Document → Prop) (hsymm : ∀ {a b}, P a b → P b a)
    (h : documents.Pairwise P) :
    (r.rerank query documents top_k).Pairwise P := by
  unfold CrossEncoderReranker.rerank
  by_cases hg : ¬ r.available ∨ documents = []
  · rw [if_pos hg]
    exact h.sublist (List.take_sublist _ _)
  · rw [if_neg hg]
    have hzip : ((documents.zip (match r.score query documents with
        | .ok s => s | .error _ => [])).map Prod.fst).Pairwise P :=
      h.sublist (map_fst_zip_sublist _ _)
    have hz : (documents.zip (match r.score query documents with
        | .ok s => s | .error _ => [])).Pairwise (fun p q => P p.1 q.1) :=
      List.pairwise_map.mp hzip
    have hsorted := hz.perm (sortDesc_perm (fun p => p.2) _).symm
      (fun hpq => hsymm hpq)
    have htake := hsorted.sublist (List.take_sublist top_k _)
    exact List.pairwise_map.mpr htake

/-- Fusing preserves well-keyedness of the accumulator: this is the shape
of both fusion loops in `HybridRetriever.search`. -/
theorem wellKeyed_fuse_foldl (hash : String → String)
    (l : List (Document × ℚ)) (delta : Document × ℚ → ℚ)
    (m : List ScoreEntry)
    (h1 : ∀ e ∈ m, e.1 = getStableDocKey hash e.2.1)
    (h2 : (entryKeys m).Nodup) :
    (∀ e ∈ l.foldl (fun m p =>
        addScore m (getStableDocKey hash p.1) p.1 (delta p)) m,
      e.1 = getStableDocKey hash e.2.1) ∧
    (entryKeys (l.foldl (fun m p =>
        addScore m (getStableDocKey hash p.1) p.1 (delta p)) m)).Nodup := by
  induction l generalizing m with
  | nil => exact ⟨h1, h2⟩
  | cons p ps ih =>
      simp only [List.foldl_cons]
      exact ih _ (addScore_entry_consistent hash m p.1 (delta p) h1)
        (entryKeys_nodup_addScore m _ p.1 (delta p) h2)

/-- The fused `doc_scores` dictionary is well-keyed: every entry's key is
the stable key of its stored document, and keys are pairwise distinct. -/
theorem fuse_wellKeyed (r : HybridRetriever) (hash : String → String)
    (vector_results bm25_results : List (Document × ℚ)) :
    (∀ e ∈ r.fuse hash vector_results bm25_results,
      e.1 = getStableDocKey hash e.2.1) ∧
    (entryKeys (r.fuse hash vector_results bm25_results)).Nodup := by
  unfold HybridRetriever.fuse
  by_cases hv : vector_results = []
  · by_cases hb : bm25_results = []
    · simp only [if_pos hv, if_pos hb]
      exact ⟨fun e he => absurd he (List.not_mem_nil e), by simp [entryKeys]⟩
    · simp only [if_pos hv, if_neg hb]
      exact wellKeyed_fuse_foldl hash _ _ _ (by intro e he; cases he)
        (by simp [entryKeys])
  · by_cases hb : bm25_results = []
    · simp only [if_neg hv, if_pos hb]
      exact wellKeyed_fuse_foldl hash _ _ _ (by intro e he; cases he)
        (by simp [entryKeys])
    · simp only [if_neg hv, if_neg hb]
      obtain ⟨g1, g2⟩ := wellKeyed_fuse_foldl hash vector_results
        (fun p => vectorNorm (minSnd vector_results)
          (maxSnd vector_results - minSnd vector_results) p.2 * r.vector_weight)
        [] (by intro e he; cases he) (by simp [entryKeys])
      exact wellKeyed_fuse_foldl hash _ _ _ g1 g2

/-- The sorted candidate list carries pairwise-distinct stable keys. -/
theorem candidateDocs_pairwise_keys (r : HybridRetriever)
    (hash : String → String)
    (vector_results bm25_results : List (Document × ℚ)) :
    (r.candidateDocs hash vector_results bm25_results).Pairwise
      (fun d1 d2 => getStableDocKey hash d1 ≠ getStableDocKey hash d2) := by
  obtain ⟨h1, h2⟩ := fuse_wellKeyed r hash vector_results bm25_results
  set m := r.fuse hash vector_results bm25_results with hm
  have hkeys : (m.map (fun e => e.1)).Pairwise (fun a b => a ≠ b) := h2
  have hentries : m.Pairwise (fun e f => e.1 ≠ f.1) :=
    List.pairwise_map.mp hkeys
  have hentries2 : m.Pairwise
      (fun e f => getStableDocKey hash e.2.1 ≠ getStableDocKey hash f.2.1) := by
    refine hentries.imp_of_mem ?_
    intro e f he hf hne
    rw [← h1 e he, ← h1 f hf]
    exact hne
  have hvals : (m.map (fun e => e.2)).Pairwise
      (fun v w => getStableDocKey hash v.1 ≠ getStableDocKey hash w.1) :=
    List.pairwise_map.mpr hentries2
  have hsorted := hvals.perm (sortDesc_perm (fun x => x.2) _).symm
    (fun hpq hh => hpq hh.symm)
  exact List.pairwise_map.mpr hsorted

/-! ## Claim theorems -/

/-- C2.  Deduplication: for every query (and every retriever state, stable
hash, and pair of sub-search result lists), the documents returned by
`HybridRetriever.search` have pairwise-distinct stable keys — even when the
same underlying chunk is returned by both the lexical and the vector
sub-search; the uniqueness established during fusion survives the optional
rerank stage. -/
theorem search_result_dedup (r : HybridRetriever) (hash : String → String)
    (query : String) (recallTime rerankTime : ℚ) :
    ((r.search hash query recallTime rerankTime).2).Pairwise
      (fun d1 d2 => getStableDocKey hash d1 ≠ getStableDocKey hash d2) := by
  unfold HybridRetriever.search
  have hc := candidateDocs_pairwise_keys r hash
    (r.vectorstore query (max r.top_n_candidates (r.top_k * 4)))
    (r.bm25_index query (max r.top_n_candidates (r.top_k * 4)))
  cases hrr : r.reranker with
  | none =>
      simpa using hc.sublist (List.take_sublist _ _)
  | some rr =>
      by_cases hlen : (r.candidateDocs hash
          (r.vectorstore query (max r.top_n_candidates (r.top_k * 4)))
          (r.bm25_index query (max r.top_n_candidates (r.top_k * 4)))).length > r.top_k
      · simp only [hlen, if_pos, if_true]
        exact rerank_pairwise rr query _ r.top_k _ (fun h hh => h hh.symm)
          (hc.sublist (List.take_sublist _ _))
      · simp only [if_neg hlen]
        simpa using hc.sublist (List.take_sublist _ _)

/-- C10.  Frame property: a call to `HybridRetriever.search` changes only
the two timing fields `last_recall_time` and `last_rerank_time`; the
configuration fields and the references to the vector store and the BM25
index are unchanged. -/
theorem search_frame (r : HybridRetriever) (hash : String → String)
    (query : String) (recallTime rerankTime : ℚ) :
    ((r.search hash query recallTime rerankTime).1).vectorstore = r.vectorstore ∧
    ((r.search hash query recallTime rerankTime).1).bm25_index = r.bm25_index ∧
    ((r.search hash query recallTime rerankTime).1).vector_weight = r.vector_weight ∧
    ((r.search hash query recallTime rerankTime).1).bm25_weight = r.bm25_weight ∧
    ((r.search hash query recallTime rerankTime).1).top_k = r.top_k ∧
    ((r.search hash query recallTime rerankTime).1).top_n_candidates = r.top_n_candidates ∧
    ((r.search hash query recallTime rerankTime).1).reranker = r.reranker := by
  unfold HybridRetriever.search
  cases hrr : r.reranker with
  | none => simp [hrr]
  | some rr =>
      by_cases hlen : (r.candidateDocs hash
          (r.vectorstore query (max r.top_n_candidates (r.top_k * 4)))
          (r.bm25_index query (max r.top_n_candidates (r.top_k * 4)))).length > r.top_k
      · simp [hrr, hlen]
      · simp [hrr, hlen]

theorem foldl_max_init_le (l : List (Document × ℚ)) (a : ℚ) :
    a ≤ l.foldl (fun x q => max x q.2) a := by
  induction l generalizing a with
  | nil => exact le_refl a
  | cons p ps ih => exact le_trans (le_max_left a p.2) (ih (max a p.2))

theorem le_foldl_max (l : List (Document × ℚ)) (a : ℚ) :
    ∀ p ∈ l, p.2 ≤ l.foldl (fun x q => max x q.2) a := by
  induction l generalizing a with
  | nil => intro p hp; cases hp
  | cons q qs ih =>
      intro p hp
      rcases List.mem_cons.mp hp with hp | hp
      · rw [hp]
        exact le_trans (le_max_right a q.2) (foldl_max_init_le qs (max a q.2))
      · exact ih (max a q.2) p hp

theorem foldl_min_le_init (l : List (Document × ℚ)) (a : ℚ) :
    l.foldl (fun x q => min x q.2) a ≤ a := by
  induction l generalizing a with
  | nil => exact le_refl a
  | cons p ps ih => exact le_trans (ih (min a p.2)) (min_le_left a p.2)

theorem foldl_min_le (l : List (Document × ℚ)) (a : ℚ) :
    ∀ p ∈ l, l.foldl (fun x q => min x q.2) a ≤ p.2 := by
  induction l generalizing a with
  | nil => intro p hp; cases hp
  | cons q qs ih =>
      intro p hp
      rcases List.mem_cons.mp hp with hp | hp
      · rw [hp]
        exact le_trans (foldl_min_le_init qs (min a q.2)) (min_le_right a q.2)
      · exact ih (min a q.2) p hp

theorem le_maxSnd (l : List (Document × ℚ)) : ∀ p ∈ l, p.2 ≤ maxSnd l := by
  intro p hp
  cases l with
  | nil => cases hp
  | cons q qs =>
      rcases List.mem_cons.mp hp with hp | hp
      · rw [hp]; exact foldl_max_init_le qs q.2
      · exact le_foldl_max qs q.2 p hp

theorem minSnd_le (l : List (Document × ℚ)) : ∀ p ∈ l, minSnd l ≤ p.2 := by
  intro p hp
  cases l with
  | nil => cases hp
  | cons q qs =>
      rcases List.mem_cons.mp hp with hp | hp
      · rw [hp]; exact foldl_min_le_init qs q.2
      · exact foldl_min_le qs q.2 p hp

theorem foldl_max_le (l : List (Document × ℚ)) (a c : ℚ) (ha : a ≤ c)
    (h : ∀ p ∈ l, p.2 ≤ c) : l.foldl (fun x q => max x q.2) a ≤ c := by
  induction l generalizing a with
  | nil => exact ha
  | cons q qs ih =>
      exact ih (max a q.2) (max_le ha (h q (List.mem_cons_self _ _)))
        (fun p hp => h p (List.mem_cons_of_mem _ hp))

theorem le_foldl_min (l : List (Document × ℚ)) (a c : ℚ) (ha : c ≤ a)
    (h : ∀ p ∈ l, c ≤ p.2) : c ≤ l.foldl (fun x q => min x q.2) a := by
  induction l generalizing a with
  | nil => exact ha
  | cons q qs ih =>
      exact ih (min a q.2) (le_min ha (h q (List.mem_cons_self _ _)))
        (fun p hp => h p (List.mem_cons_of_mem _ hp))

theorem maxSnd_all_eq (l : List (Document × ℚ)) (c : ℚ)
    (h : ∀ p ∈ l, p.2 = c) (hne : l ≠ []) : maxSnd l = c := by
  cases l with
  | nil => exact absurd rfl hne
  | cons q qs =>
      refine le_antisymm ?_ ?_
      · exact foldl_max_le qs q.2 c (le_of_eq (h q (List.mem_cons_self _ _)))
          (fun p hp => le_of_eq (h p (List.mem_cons_of_mem _ hp)))
      · have hq := le_maxSnd (q :: qs) q (List.mem_cons_self _ _)
        rw [h q (List.mem_cons_self _ _)] at hq
        exact hq

theorem minSnd_all_eq (l : List (Document × ℚ)) (c : ℚ)
    (h : ∀ p ∈ l, p.2 = c) (hne : l ≠ []) : minSnd l = c := by
  cases l with
  | nil => exact absurd rfl hne
  | cons q qs =>
      refine le_antisymm ?_ ?_
      · have hq := minSnd_le (q :: qs) q (List.mem_cons_self _ _)
        rw [h q (List.mem_cons_self _ _)] at hq
        exact hq
      · exact le_foldl_min qs q.2 c (le_of_eq (h q (List.mem_cons_self _ _)).symm)
          (fun p hp => le_of_eq (h p (List.mem_cons_of_mem _ hp)).symm)

theorem smoothEps_pos : 0 < smoothEps := by norm_num [smoothEps]

theorem map_fst_zip_replicate (l : List Document) (c : ℚ) :
    (l.zip (List.replicate l.length c)).map (fun p => p.1) = l := by
  induction l with
  | nil => rfl
  | cons x xs ih => simpa [List.replicate_succ] using ih

/-- C8.  Degenerate vector normalization: when the vector search returns a
single candidate, or all returned candidates share one distance
(`min_d = max_d`), the denominator `max_d - min_d + 1e-10` of the
normalization in `HybridRetriever.search` is nonzero (no division by zero)
and the formula assigns normalized score `1` to every such candidate. -/
theorem vector_norm_degenerate (vector_results : List (Document × ℚ)) (c : ℚ)
    (hne : vector_results ≠ []) (hall : ∀ p ∈ vector_results, p.2 = c) :
    (maxSnd vector_results - minSnd vector_results) + smoothEps ≠ 0 ∧
    ∀ p ∈ vector_results,
      vectorNorm (minSnd vector_results)
        (maxSnd vector_results - minSnd vector_results) p.2 = 1 := by
  have hmax := maxSnd_all_eq vector_results c hall hne
  have hmin := minSnd_all_eq vector_results c hall hne
  constructor
  · rw [hmax, hmin]
    simpa using ne_of_gt smoothEps_pos
  · intro p hp
    rw [vectorNorm, hmax, hmin, hall p hp]
    simp

/-- C8 witness: a single-candidate vector result. -/
theorem vector_norm_degenerate_witness :
    (maxSnd [(({ page_content := "solo" } : Document), (37 : ℚ))] -
      minSnd [(({ page_content := "solo" } : Document), (37 : ℚ))]) + smoothEps ≠ 0 ∧
    ∀ p ∈ [(({ page_content := "solo" } : Document), (37 : ℚ))],
      vectorNorm (minSnd [(({ page_content := "solo" } : Document), (37 : ℚ))])
        (maxSnd [(({ page_content := "solo" } : Document), (37 : ℚ))] -
          minSnd [(({ page_content := "solo" } : Document), (37 : ℚ))]) p.2 = 1 :=
  vector_norm_degenerate _ 37 (by simp) (by simp)

/-- C3.  Reranker failure degradation: if the model is loaded but the
underlying scoring call raises during `CrossEncoderReranker.score`, then
`score` substitutes the uniform constant `0.5` for every candidate (instead
of propagating), and — the sort being stable — `rerank` returns the first
`min(top_k, len(candidates))` candidates in their original input order.
Both embedded functions are total, so neither call raises to the caller. -/
theorem rerank_degrades_on_scoring_failure (r : CrossEncoderReranker)
    (query : String) (documents : List Document) (top_k : Nat)
    (havail : r.available = true) (hne : documents ≠ [])
    (hfail : r.predict (scorePairs query documents) = .error ()) :
    r.score query documents = .ok (List.replicate documents.length (1 / 2)) ∧
    r.rerank query documents top_k = documents.take top_k := by
  have hscore : r.score query documents =
      .ok (List.replicate documents.length (1 / 2)) := by
    simp [CrossEncoderReranker.score, havail, hne, hfail]
  refine ⟨hscore, ?_⟩
  unfold CrossEncoderReranker.rerank
  have hguard : ¬ (¬ r.available = true ∨ documents = []) := by
    simp [havail, hne]
  rw [if_neg hguard]
  simp only [hscore]
  have hsort := sortDesc_const_key (fun p : Document × ℚ => p.2) (1 / 2)
    (documents.zip (List.replicate documents.length (1 / 2)))
    (zip_replicate_snd documents (1 / 2))
  rw [hsort, List.map_take, map_fst_zip_replicate]

/-- C3 witness: a loaded reranker whose scoring call always fails returns
the first candidate, in order, without raising. -/
theorem rerank_degrades_on_scoring_failure_witness :
    ({ available := true, predict := fun _ => .error () } :
        CrossEncoderReranker).score "q"
      [{ page_content := "one" }, { page_content := "two" }] =
      .ok [1 / 2, 1 / 2] ∧
    ({ available := true, predict := fun _ => .error () } :
        CrossEncoderReranker).rerank "q"
      [{ page_content := "one" }, { page_content := "two" }] 1 =
      [{ page_content := "one" }] := by
  have h := rerank_degrades_on_scoring_failure
    { available := true, predict := fun _ => .error () } "q"
    [{ page_content := "one" }, { page_content := "two" }] 1
    rfl (by simp) rfl
  exact ⟨by simpa using h.1, by simpa using h.2⟩

/-! ## C4: LLM fallback parser -/

theorem mapPyInt_eq_none {l : List String}
    (h : ∃ t ∈ l, pyParseInt t = none) : mapPyInt l = none := by
  induction l with
  | nil => rcases h with ⟨t, ht, _⟩; cases ht
  | cons x xs ih =>
      rcases h with ⟨t, ht, hnone⟩
      rcases List.mem_cons.mp ht with rfl | ht
      · simp [mapPyInt, hnone]
      · cases hx : pyParseInt x with
        | none => simp [mapPyInt, hx]
        | some v => simp [mapPyInt, hx, ih ⟨t, ht, hnone⟩]

theorem selectInRange_eq_nil {documents : List Document} {indices : List Int}
    (h : ∀ i ∈ indices, i < 0 ∨ (documents.length : Int) ≤ i) :
    selectInRange documents indices = [] := by
  induction indices with
  | nil => rfl
  | cons i is ih =>
      have hi := h i (List.mem_cons_self _ _)
      have hcond : ¬ (0 ≤ i ∧ i < (documents.length : Int)) := by
        rcases hi with hi | hi
        · exact fun hc => absurd hc.1 (not_le.mpr hi)
        · exact fun hc => absurd hc.2 (not_lt.mpr hi)
      simpa [selectInRange, hcond]
        using ih (fun j hj => h j (List.mem_cons_of_mem _ hj))

/-- C4 counterexample.  The claim states that a permutation string with an
out-of-range index (or the wrong count of indices) makes `LLMReranker.rerank`
return `candidates[:top_k]` unchanged.  It does not: on candidates
`[docOne, docTwo]` with `top_k = 2`, the response `"1,5"` (the index 5 is
out of range, and only one index is in range — also a wrong count) yields
`[docTwo]`, not `[docOne, docTwo]`: in-range indices are kept and reordered,
only the out-of-range ones are dropped. -/
theorem llm_rerank_out_of_range_counterexample :
    LLMReranker.rerank (some (.ok "1,5")) "q" [docOne, docTwo] 2 = [docTwo] ∧
    [docTwo] ≠ ([docOne, docTwo] : List Document).take 2 := by
  constructor
  · decide
  · decide

/-- C4 amended.  `LLMReranker.rerank` is total (never raises) and returns
`candidates[:top_k]` unchanged when the malformed permutation string has a
non-integer token among its first `top_k` comma-separated fields, or when
every parsed index is out of range; an out-of-range index in an otherwise
parseable response is merely dropped (it does not force the full fallback),
and a wrong count alone does not trigger the fallback either. -/
theorem llm_rerank_fallback (query : String) (documents : List Document)
    (top_k : Nat) (content : String)
    (h : (∃ t ∈ (pySplitComma content).take top_k, pyParseInt t = none) ∨
         (∀ idxs, parseRankIndices content top_k = some idxs →
            ∀ i ∈ idxs, i < 0 ∨ (documents.length : Int) ≤ i)) :
    LLMReranker.rerank (some (.ok content)) query documents top_k =
      documents.take top_k := by
  simp only [LLMReranker.rerank]
  by_cases hd : documents = []
  · rw [if_pos hd]
  · rw [if_neg hd]
    rcases h with h | h
    · have hparse : parseRankIndices content top_k = none := by
        unfold parseRankIndices
        exact mapPyInt_eq_none h
      simp [hparse]
    · cases hp : parseRankIndices content top_k with
      | none => simp [hp]
      | some idxs =>
          have hsel := selectInRange_eq_nil (h idxs hp)
          simp [hp, hsel]

/-- C4 witness: the response `"a,b"` has non-integer tokens, so the
fallback returns the candidates unchanged. -/
theorem llm_rerank_fallback_witness :
    LLMReranker.rerank (some (.ok "a,b")) "q" [docOne, docTwo] 2 =
      [docOne, docTwo] := by
  have h := llm_rerank_fallback "q" [docOne, docTwo] 2 "a,b"
    (Or.inl ⟨"a", by decide, by decide⟩)
  simpa using h

/-! ## C6 / C7: lexical search edge cases -/

theorem getD_replicate_zero (n i : Nat) :
    (List.replicate n (0 : ℚ)).getD i 0 = 0 := by
  induction n generalizing i with
  | zero => simp [List.replicate]
  | succ m ih =>
      cases i with
      | zero => simp [List.replicate]
      | succ j => simpa [List.replicate] using ih j

/-- An empty query scores every document `0` (`get_scores` starts from
`np.zeros(corpus_size)` and its loop body never runs). -/
theorem get_scores_empty_query (bm : BM25Okapi) :
    bm.get_scores [] = List.replicate bm.corpus_size 0 := rfl

/-- A zero-size corpus yields an empty score vector for every query. -/
theorem get_scores_zero_corpus (bm : BM25Okapi) (query : List String)
    (h : bm.corpus_size = 0) : bm.get_scores query = [] := by
  unfold BM25Okapi.get_scores
  rw [h]
  induction query with
  | nil => rfl
  | cons q qs ih =>
      rw [List.foldl_cons]
      simpa using ih

/-- C6 amended.  `BM25Index.search` never fails; it returns the empty
sequence when `top_k = 0`, but when the query tokenizes to the empty token
list it instead returns the first `top_k` corpus documents (in corpus
order), each paired with score `0` — not the empty sequence the claim
states. -/
theorem bm25_search_degenerate_inputs (idx : BM25Index)
    (tokenize : String → List String) (query : String) (top_k : Nat) :
    (top_k = 0 → idx.search tokenize query top_k = []) ∧
    (tokenize query = [] →
      idx.search tokenize query top_k =
        ((List.range idx.bm25.corpus_size).take top_k).map
          (fun i => (idx.documents.getD i default, 0))) := by
  constructor
  · intro h
    simp [BM25Index.search, h]
  · intro h
    simp only [BM25Index.search, h, get_scores_empty_query]
    have hkey : ∀ i ∈ List.range (List.replicate idx.bm25.corpus_size (0 : ℚ)).length,
        (List.replicate idx.bm25.corpus_size (0 : ℚ)).getD i 0 = 0 :=
      fun i _ => getD_replicate_zero _ i
    rw [sortDesc_const_key _ 0 _ hkey]
    simp only [List.length_replicate]
    exact List.map_congr_left (fun i _ => by rw [getD_replicate_zero])

/-- C6 witness: on a one-document index, `top_k = 0` gives `[]`, and an
empty-tokenizing query with `top_k = 3` gives the document with score 0. -/
theorem bm25_search_degenerate_inputs_witness :
    (({ documents := [docA],
        bm25 := { corpus_size := 1, avgdl := 1, doc_freqs := [[("w", 1)]],
                  idf := [("w", 0)], doc_len := [1], average_idf := 0 } } :
        BM25Index).search tokStub "anything" 0 = []) ∧
    (({ documents := [docA],
        bm25 := { corpus_size := 1, avgdl := 1, doc_freqs := [[("w", 1)]],
                  idf := [("w", 0)], doc_len := [1], average_idf := 0 } } :
        BM25Index).search tokStub "" 3 = [(docA, 0)]) := by
  constructor
  · exact (bm25_search_degenerate_inputs _ tokStub "anything" 0).1 rfl
  · have h := (bm25_search_degenerate_inputs
      { documents := [docA],
        bm25 := { corpus_size := 1, avgdl := 1, doc_freqs := [[("w", 1)]],
                  idf := [("w", 0)], doc_len := [1], average_idf := 0 } }
      tokStub "" 3).2 (by simp [tokStub])
    simpa [List.range_succ] using h

/-- C6 counterexample.  The claim states that a query tokenizing to the
empty token list yields an empty result for every index built over a
non-empty corpus.  It does not: over the one-document corpus `[docA]`
(built through `BM25Index.build`), the empty query — whose tokenization is
`[]` — returns `[(docA, 0)]`, a non-empty sequence. -/
theorem bm25_empty_query_counterexample :
    (BM25Index.build tokStub logStub [docA]).map
      (fun idx => idx.search tokStub "" 1) = .ok [(docA, 0)] ∧
    tokStub "" = [] ∧ ([(docA, 0)] : List (Document × ℚ)) ≠ [] := by
  refine ⟨?_, rfl, by simp⟩
  rfl

/-- C7 amended.  An index holding zero chunks cannot be searched, but not
for the reason the claim states: its construction already fails
(`ZeroDivisionError` while computing the average document length inside the
BM25 scorer's constructor), and `BM25Index.search` itself has no failure
path at all — applied to a zero-chunk index state it would return the empty
sequence, not raise an `EmptyCorpus` error. -/
theorem bm25_zero_chunks_behaviour (tokenize : String → List String)
    (log : ℚ → ℚ) (query : String) (top_k : Nat) (idx : BM25Index)
    (h : idx.bm25.corpus_size = 0) :
    BM25Index.build tokenize log [] =
      .error "ZeroDivisionError: division by zero (avgdl)" ∧
    idx.search tokenize query top_k = [] := by
  constructor
  · simp [BM25Index.build, BM25Okapi.build]
  · simp only [BM25Index.search,
      get_scores_zero_corpus idx.bm25 (tokenize query) h]
    simp [sortDesc]

/-- C7 witness: the zero-chunk index state. -/
theorem bm25_zero_chunks_behaviour_witness :
    BM25Index.build tokStub logStub [] =
      .error "ZeroDivisionError: division by zero (avgdl)" ∧
    emptyBM25.search tokStub "anything" 5 = [] :=
  bm25_zero_chunks_behaviour tokStub logStub "anything" 5 emptyBM25 rfl

/-- C7 counterexample.  The claim states that a search against a zero-chunk
lexical index fails with an `EmptyCorpus` error surfaced to the caller
rather than returning a result.  In the code there is no such error: the
failure on an empty corpus is a `ZeroDivisionError` raised at *construction*
time, and the search function itself — which performs no emptiness check —
returns the empty sequence (a result, not a failure) on a zero-chunk index
state. -/
theorem bm25_empty_corpus_counterexample :
    emptyBM25.search tokStub "sphericity" 5 = [] ∧
    BM25Index.build tokStub logStub [] =
      .error "ZeroDivisionError: division by zero (avgdl)" := by
  constructor
  · rfl
  · rfl

/-- C1 counterexample.  The claim asserts the exact fused scores `0.72` for
B and `0.35` for A.  The `1e-10` smoothing in both normalizations makes
every stated equality except B's vector norm false: the computed fused
scores are `102857142859/142857142860` (≈ 0.72 − 1.4·10⁻¹²) and
`133333333380952380953/380952381007619047620` (≈ 0.35 + 7.4·10⁻¹¹). -/
theorem fusion_scenario_counterexample :
    ((scenarioRetriever.sortedCandidates hashId
        [(docB, 1 / 10), (docA, 9 / 10)] [(docA, 5), (docB, 1)]).map
      (fun p => p.2)) ≠ [18 / 25, 7 / 20] := by
  have hBA : getStableDocKey hashId docB ≠ getStableDocKey hashId docA := by decide
  have hAB : getStableDocKey hashId docA ≠ getStableDocKey hashId docB := by decide
  norm_num [HybridRetriever.sortedCandidates, HybridRetriever.fuse, addScore,
    sortDesc, insertDesc, vectorNorm, maxSnd, minSnd, smoothEps,
    scenarioRetriever, hBA, hAB, max_def, min_def]

/-- C1 amended.  In the scenario, `HybridRetriever.search` returns the
documents in the order `[B, A]`, and the normalized and fused scores equal
the claimed values only up to the `1e-10` smoothing (each within `10⁻⁹`):
B's vector norm is exactly `1`; A's vector norm is within `10⁻⁹` of `0`;
A's and B's bm25 norms are within `10⁻⁹` of `1` and `0.2`; the fused scores
are within `10⁻⁹` of `0.72` and `0.35`. -/
theorem fusion_scenario :
    (scenarioRetriever.search hashId "sphericity" 0 0).2 = [docB, docA] ∧
    (scenarioRetriever.sortedCandidates hashId
        [(docB, 1 / 10), (docA, 9 / 10)] [(docA, 5), (docB, 1)]).map
      (fun p => p.2) =
      [102857142859 / 142857142860, 133333333380952380953 / 380952381007619047620] ∧
    |(102857142859 : ℚ) / 142857142860 - 18 / 25| < 1 / 10 ^ 9 ∧
    |(133333333380952380953 : ℚ) / 380952381007619047620 - 7 / 20| < 1 / 10 ^ 9 ∧
    vectorNorm (minSnd [(docB, 1 / 10), (docA, 9 / 10)])
      (maxSnd [(docB, 1 / 10), (docA, 9 / 10)] -
        minSnd [(docB, 1 / 10), (docA, 9 / 10)]) (1 / 10) = 1 ∧
    |vectorNorm (minSnd [(docB, 1 / 10), (docA, 9 / 10)])
      (maxSnd [(docB, 1 / 10), (docA, 9 / 10)] -
        minSnd [(docB, 1 / 10), (docA, 9 / 10)]) (9 / 10) - 0| < 1 / 10 ^ 9 ∧
    |(5 : ℚ) / (maxSnd [(docA, 5), (docB, 1)] + smoothEps) - 1| < 1 / 10 ^ 9 ∧
    |(1 : ℚ) / (maxSnd [(docA, 5), (docB, 1)] + smoothEps) - 1 / 5| < 1 / 10 ^ 9 := by
  have hBA : getStableDocKey hashId docB ≠ getStableDocKey hashId docA := by decide
  have hAB : getStableDocKey hashId docA ≠ getStableDocKey hashId docB := by decide
  refine ⟨?_, ?_, by norm_num [abs_lt], by norm_num [abs_lt], ?_, ?_, ?_, ?_⟩
  · norm_num [HybridRetriever.search, HybridRetriever.candidateDocs,
      HybridRetriever.sortedCandidates, HybridRetriever.fuse, addScore,
      sortDesc, insertDesc, vectorNorm, maxSnd, minSnd, smoothEps,
      scenarioRetriever, hBA, hAB, max_def, min_def]
  · norm_num [HybridRetriever.sortedCandidates, HybridRetriever.fuse, addScore,
      sortDesc, insertDesc, vectorNorm, maxSnd, minSnd, smoothEps,
      scenarioRetriever, hBA, hAB, max_def, min_def]
  · norm_num [vectorNorm, maxSnd, minSnd, smoothEps, max_def, min_def]
  · norm_num [vectorNorm, maxSnd, minSnd, smoothEps, max_def, min_def, abs_lt]
  · norm_num [maxSnd, smoothEps, max_def, abs_lt]
  · norm_num [maxSnd, smoothEps, max_def, abs_lt]

/-- C5 amended.  In `HybridRetriever.search` the rerank stage is entered
whenever a reranker instance is configured (`is not None`) and the number
of fused candidates is strictly greater than `top_k` — availability is not
consulted by the gate.  With no reranker, or not enough candidates, the
call returns `candidates[:top_k]` from fusion order; with a configured but
unavailable reranker and more than `top_k` candidates it instead returns
`candidates[:top_n_candidates][:top_k]`; and in every case the final
result has length at most `top_k`. -/
theorem search_rerank_gating (r : HybridRetriever) (hash : String → String)
    (query : String) (recallTime rerankTime : ℚ) :
    ((r.search hash query recallTime rerankTime).2).length ≤ r.top_k ∧
    (r.reranker = none →
      (r.search hash query recallTime rerankTime).2 =
        (r.candidateDocs hash
          (r.vectorstore query (max r.top_n_candidates (r.top_k * 4)))
          (r.bm25_index query (max r.top_n_candidates (r.top_k * 4)))).take r.top_k) ∧
    (∀ rr, r.reranker = some rr →
      ¬ (r.candidateDocs hash
          (r.vectorstore query (max r.top_n_candidates (r.top_k * 4)))
          (r.bm25_index query (max r.top_n_candidates (r.top_k * 4)))).length > r.top_k →
      (r.search hash query recallTime rerankTime).2 =
        (r.candidateDocs hash
          (r.vectorstore query (max r.top_n_candidates (r.top_k * 4)))
          (r.bm25_index query (max r.top_n_candidates (r.top_k * 4)))).take r.top_k) ∧
    (∀ rr, r.reranker = some rr → rr.available = false →
      (r.candidateDocs hash
          (r.vectorstore query (max r.top_n_candidates (r.top_k * 4)))
          (r.bm25_index query (max r.top_n_candidates (r.top_k * 4)))).length > r.top_k →
      (r.search hash query recallTime rerankTime).2 =
        ((r.candidateDocs hash
            (r.vectorstore query (max r.top_n_candidates (r.top_k * 4)))
            (r.bm25_index query (max r.top_n_candidates (r.top_k * 4)))).take
          r.top_n_candidates).take r.top_k) := by
  refine ⟨?_, ?_, ?_, ?_⟩
  · unfold HybridRetriever.search
    cases hrr : r.reranker with
    | none => simpa using List.length_take_le _ _
    | some rr =>
        by_cases hlen : (r.candidateDocs hash
            (r.vectorstore query (max r.top_n_candidates (r.top_k * 4)))
            (r.bm25_index query (max r.top_n_candidates (r.top_k * 4)))).length > r.top_k
        · simpa [hlen] using rerank_length_le rr query _ r.top_k
        · simpa [hlen] using List.length_take_le _ _
  · intro h
    unfold HybridRetriever.search
    rw [h]
  · intro rr h hlen
    unfold HybridRetriever.search
    rw [h]
    simp [hlen]
  · intro rr h hav hlen
    unfold HybridRetriever.search
    rw [h]
    simp only [hlen, if_true]
    unfold CrossEncoderReranker.rerank
    rw [if_pos (Or.inl (by simp [hav]))]

/-- C5 witness: applying the gating theorem to the concrete
`gateRetriever` (unavailable reranker, `top_n_candidates = 1`,
`top_k = 2`, three fused candidates). -/
theorem search_rerank_gating_witness :
    (gateRetriever.search hashId "q" 0 0).2 =
      ((gateRetriever.candidateDocs hashId
          (gateRetriever.vectorstore "q"
            (max gateRetriever.top_n_candidates (gateRetriever.top_k * 4)))
          (gateRetriever.bm25_index "q"
            (max gateRetriever.top_n_candidates (gateRetriever.top_k * 4)))).take
        gateRetriever.top_n_candidates).take gateRetriever.top_k := by
  refine (search_rerank_gating gateRetriever hashId "q" 0 0).2.2.2
    unavailableReranker rfl rfl ?_
  have hAB : getStableDocKey hashId docA ≠ getStableDocKey hashId docB := by decide
  have hBA : getStableDocKey hashId docB ≠ getStableDocKey hashId docA := by decide
  have hAC : getStableDocKey hashId docA ≠ getStableDocKey hashId docC := by decide
  have hCA : getStableDocKey hashId docC ≠ getStableDocKey hashId docA := by decide
  have hBC : getStableDocKey hashId docB ≠ getStableDocKey hashId docC := by decide
  have hCB : getStableDocKey hashId docC ≠ getStableDocKey hashId docB := by decide
  norm_num [HybridRetriever.candidateDocs, HybridRetriever.sortedCandidates,
    HybridRetriever.fuse, addScore, sortDesc, insertDesc, vectorNorm,
    maxSnd, minSnd, smoothEps, gateRetriever, hAB, hBA, hAC, hCA, hBC, hCB,
    max_def, min_def]

/-- C5 counterexample.  The claim states the rerank stage is entered only
when the configured reranker is *available*, and that otherwise the call
returns `candidates[:top_k]`.  On `gateRetriever` (reranker configured but
unavailable, 3 fused candidates `[docA, docB, docC]`, `top_k = 2`,
`top_n_candidates = 1`) the stage is entered anyway and returns `[docA]`,
not `candidates[:2] = [docA, docB]`. -/
theorem search_rerank_gating_counterexample :
    (gateRetriever.search hashId "q" 0 0).2 = [docA] ∧
    (gateRetriever.candidateDocs hashId
        (gateRetriever.vectorstore "q"
          (max gateRetriever.top_n_candidates (gateRetriever.top_k * 4)))
        (gateRetriever.bm25_index "q"
          (max gateRetriever.top_n_candidates (gateRetriever.top_k * 4)))).take
      gateRetriever.top_k = [docA, docB] ∧
    ([docA] : List Document) ≠ [docA, docB] := by
  have hAB : getStableDocKey hashId docA ≠ getStableDocKey hashId docB := by decide
  have hBA : getStableDocKey hashId docB ≠ getStableDocKey hashId docA := by decide
  have hAC : getStableDocKey hashId docA ≠ getStableDocKey hashId docC := by decide
  have hCA : getStableDocKey hashId docC ≠ getStableDocKey hashId docA := by decide
  have hBC : getStableDocKey hashId docB ≠ getStableDocKey hashId docC := by decide
  have hCB : getStableDocKey hashId docC ≠ getStableDocKey hashId docB := by decide
  refine ⟨?_, ?_, by simp⟩
  · norm_num [HybridRetriever.search, HybridRetriever.candidateDocs,
      HybridRetriever.sortedCandidates, HybridRetriever.fuse, addScore,
      sortDesc, insertDesc, vectorNorm, maxSnd, minSnd, smoothEps,
      gateRetriever, unavailableReranker, CrossEncoderReranker.rerank,
      hAB, hBA, hAC, hCA, hBC, hCB, max_def, min_def]
  · norm_num [HybridRetriever.candidateDocs, HybridRetriever.sortedCandidates,
      HybridRetriever.fuse, addScore, sortDesc, insertDesc, vectorNorm,
      maxSnd, minSnd, smoothEps, gateRetriever, hAB, hBA, hAC, hCA, hBC, hCB,
      max_def, min_def]

/-! ## C9: weight monotonicity -/

theorem scoreOf_eq_zero_of_not_mem (m : List ScoreEntry) (k : String)
    (h : k ∉ entryKeys m) : scoreOf m k = 0 := by
  induction m with
  | nil => rfl
  | cons e rest ih =>
      have hek : e.1 ≠ k := fun hh => h (by
        rw [entryKeys_cons, hh]; exact List.mem_cons_self _ _)
      have hrest : k ∉ entryKeys rest := fun hr => h (by
        rw [entryKeys_cons]; exact List.mem_cons_of_mem _ hr)
      simp [scoreOf, hek, ih hrest]

theorem scoreOf_eq_of_mem (m : List ScoreEntry) (e : ScoreEntry)
    (he : e ∈ m) (hnd : (entryKeys m).Nodup) : scoreOf m e.1 = e.2.2 := by
  induction m with
  | nil => cases he
  | cons f rest ih =>
      rcases List.mem_cons.mp he with rfl | he
      · simp [scoreOf]
      · have hkey : e.1 ∈ entryKeys rest := List.mem_map_of_mem (fun x => x.1) he
        have hne : f.1 ≠ e.1 := by
          intro hh
          exact (List.nodup_cons.mp hnd).1 (by
            show f.1 ∈ entryKeys rest
            rw [hh]; exact hkey)
        simp [scoreOf, hne, ih he (List.nodup_cons.mp hnd).2]

theorem scoreOf_fuse_foldl (hash : String → String)
    (l : List (Document × ℚ)) (delta : Document × ℚ → ℚ)
    (m : List ScoreEntry) (k : String) :
    scoreOf (l.foldl (fun m p =>
        addScore m (getStableDocKey hash p.1) p.1 (delta p)) m) k =
      scoreOf m k +
      ((l.filter (fun p => getStableDocKey hash p.1 = k)).map delta).sum := by
  induction l generalizing m with
  | nil => simp
  | cons p ps ih =>
      simp only [List.foldl_cons]
      rw [ih, scoreOf_addScore]
      by_cases hp : getStableDocKey hash p.1 = k
      · rw [List.filter_cons_of_pos (by simpa using hp)]
        simp only [List.map_cons, List.sum_cons, if_pos hp]
        ring
      · rw [List.filter_cons_of_neg (by simpa using hp)]
        simp only [if_neg hp]
        ring

theorem mem_entryKeys_addScore (m : List ScoreEntry) (kp : String)
    (d : Document) (delta : ℚ) (k : String) :
    k ∈ entryKeys (addScore m kp d delta) ↔ k ∈ entryKeys m ∨ k = kp := by
  by_cases hmem : kp ∈ entryKeys m
  · rw [entryKeys_addScore_of_mem _ _ _ _ hmem]
    constructor
    · exact Or.inl
    · rintro (h | rfl)
      · exact h
      · exact hmem
  · rw [entryKeys_addScore_of_not_mem _ _ _ _ hmem]
    simp [List.mem_append]

theorem mem_entryKeys_foldl (hash : String → String)
    (l : List (Document × ℚ)) (delta : Document × ℚ → ℚ)
    (m : List ScoreEntry) (k : String) :
    k ∈ entryKeys (l.foldl (fun m p =>
        addScore m (getStableDocKey hash p.1) p.1 (delta p)) m) ↔
      k ∈ entryKeys m ∨ k ∈ l.map (fun p => getStableDocKey hash p.1) := by
  induction l generalizing m with
  | nil => simp
  | cons p ps ih =>
      simp only [List.foldl_cons]
      rw [ih, mem_entryKeys_addScore]
      simp only [List.map_cons, List.mem_cons]
      tauto

theorem entryKeys_foldl_prefix (hash : String → String)
    (l : List (Document × ℚ)) (delta : Document × ℚ → ℚ)
    (m : List ScoreEntry) :
    ∃ ks, entryKeys (l.foldl (fun m p =>
        addScore m (getStableDocKey hash p.1) p.1 (delta p)) m) =
      entryKeys m ++ ks := by
  induction l generalizing m with
  | nil => exact ⟨[], by simp⟩
  | cons p ps ih =>
      simp only [List.foldl_cons]
      by_cases hmem : getStableDocKey hash p.1 ∈ entryKeys m
      · obtain ⟨ks, hks⟩ := ih (addScore m (getStableDocKey hash p.1) p.1 (delta p))
        exact ⟨ks, by rw [hks, entryKeys_addScore_of_mem _ _ _ _ hmem]⟩
      · obtain ⟨ks, hks⟩ := ih (addScore m (getStableDocKey hash p.1) p.1 (delta p))
        refine ⟨getStableDocKey hash p.1 :: ks, ?_⟩
        rw [hks, entryKeys_addScore_of_not_mem _ _ _ _ hmem]
        simp

theorem entryKeys_eq_shape_map (m : List ScoreEntry) :
    entryKeys m = (entryShape m).map Prod.fst := by
  induction m with
  | nil => rfl
  | cons e rest ih => simp [entryKeys, entryShape] at ih ⊢

theorem addScore_shape_congr (m m' : List ScoreEntry) (k : String)
    (d : Document) (delta delta' : ℚ) (h : entryShape m = entryShape m') :
    entryShape (addScore m k d delta) = entryShape (addScore m' k d delta') := by
  have hkeys : entryKeys m = entryKeys m' := by
    rw [entryKeys_eq_shape_map, entryKeys_eq_shape_map, h]
  show (addScore m k d delta).map (fun e => (e.1, e.2.1)) =
    (addScore m' k d delta').map (fun e => (e.1, e.2.1))
  rw [addScore_preserves_docs, addScore_preserves_docs, ← hkeys]
  by_cases hmem : k ∈ entryKeys m
  · rw [if_pos hmem, if_pos hmem]; exact h
  · rw [if_neg hmem, if_neg hmem]
    exact congrArg (fun l => l ++ [(k, d)]) h

theorem foldl_shape_congr (hash : String → String)
    (l : List (Document × ℚ)) (delta delta' : Document × ℚ → ℚ)
    (m m' : List ScoreEntry) (h : entryShape m = entryShape m') :
    entryShape (l.foldl (fun m p =>
        addScore m (getStableDocKey hash p.1) p.1 (delta p)) m) =
    entryShape (l.foldl (fun m p =>
        addScore m (getStableDocKey hash p.1) p.1 (delta' p)) m') := by
  induction l generalizing m m' with
  | nil => exact h
  | cons p ps ih =>
      simp only [List.foldl_cons]
      exact ih _ _ (addScore_shape_congr m m' _ p.1 (delta p) (delta' p) h)

/-- Changing only the two weights never changes which keys and documents
the fused dictionary holds, nor their order. -/
theorem fuse_shape_congr (r : HybridRetriever) (w' b' : ℚ)
    (hash : String → String)
    (vector_results bm25_results : List (Document × ℚ)) :
    entryShape (HybridRetriever.fuse
      { r with vector_weight := w', bm25_weight := b' } hash
      vector_results bm25_results) =
    entryShape (r.fuse hash vector_results bm25_results) := by
  unfold HybridRetriever.fuse
  by_cases hv : vector_results = []
  · by_cases hb : bm25_results = []
    · simp [hv, hb]
    · simp only [if_pos hv, if_neg hb]
      exact foldl_shape_congr hash _ _ _ _ _ rfl
  · by_cases hb : bm25_results = []
    · simp only [if_neg hv, if_pos hb]
      exact foldl_shape_congr hash _ _ _ _ _ rfl
    · simp only [if_neg hv, if_neg hb]
      exact foldl_shape_congr hash _ _ _ _ _
        (foldl_shape_congr hash _ _ _ _ _ rfl)

theorem pair_sublist_of_keys (m : List ScoreEntry) (e1 e2 : ScoreEntry)
    (h1 : e1 ∈ m) (h2 : e2 ∈ m) (hnd : (entryKeys m).Nodup)
    (hks : [e1.1, e2.1].Sublist (entryKeys m)) : [e1, e2].Sublist m := by
  obtain ⟨l', hl', heq⟩ := List.sublist_map_iff.mp (hks :
    [e1.1, e2.1].Sublist (m.map (fun e => e.1)))
  cases l' with
  | nil => simp at heq
  | cons f1 rest =>
      cases rest with
      | nil => simp at heq
      | cons f2 rest2 =>
          cases rest2 with
          | cons f3 rest3 => simp at heq
          | nil =>
              simp only [List.map_cons, List.map_nil, List.cons.injEq,
                and_true] at heq
              obtain ⟨hf1, hf2⟩ := heq
              have hf1m : f1 ∈ m := hl'.subset (List.mem_cons_self _ _)
              have hf2m : f2 ∈ m :=
                hl'.subset (List.mem_cons_of_mem _ (List.mem_cons_self _ _))
              have he1 : f1 = e1 := List.inj_on_of_nodup_map hnd hf1m h1 hf1.symm
              have he2 : f2 = e2 := List.inj_on_of_nodup_map hnd hf2m h2 hf2.symm
              rw [← he1, ← he2]
              exact hl'

theorem vectorNorm_nonneg (vr : List (Document × ℚ)) (p : Document × ℚ)
    (hp : p ∈ vr) :
    0 ≤ vectorNorm (minSnd vr) (maxSnd vr - minSnd vr) p.2 := by
  have h1 : minSnd vr ≤ p.2 := minSnd_le vr p hp
  have h2 : p.2 ≤ maxSnd vr := le_maxSnd vr p hp
  have hden : 0 < (maxSnd vr - minSnd vr) + smoothEps :=
    add_pos_of_nonneg_of_pos (by linarith) smoothEps_pos
  have heps := smoothEps_pos
  have hdiv : (p.2 - minSnd vr) / ((maxSnd vr - minSnd vr) + smoothEps) ≤ 1 := by
    rw [div_le_one hden]; linarith
  unfold vectorNorm
  linarith

/-- With both sub-searches non-empty, `fuse` is literally the two
`addScore` folds. -/
theorem fuse_eq_foldl (r : HybridRetriever) (hash : String → String)
    (vr br : List (Document × ℚ)) (hv : vr ≠ []) (hb : br ≠ []) :
    r.fuse hash vr br =
      br.foldl (fun m p => addScore m (getStableDocKey hash p.1) p.1
        (p.2 / (maxSnd br + smoothEps) * r.bm25_weight))
        (vr.foldl (fun m p => addScore m (getStableDocKey hash p.1) p.1
          (vectorNorm (minSnd vr) (maxSnd vr - minSnd vr) p.2 * r.vector_weight))
          []) := by
  simp [HybridRetriever.fuse, hv, hb]

/-- The fused score of a key never returned by the lexical search is its
summed vector norm times `vector_weight`. -/
theorem fuse_score_vector_only (r : HybridRetriever) (hash : String → String)
    (vr br : List (Document × ℚ)) (hv : vr ≠ []) (hb : br ≠ [])
    (k : String)
    (hk : k ∉ br.map (fun p => getStableDocKey hash p.1)) :
    scoreOf (r.fuse hash vr br) k =
      ((vr.filter (fun p => getStableDocKey hash p.1 = k)).map
        (fun p => vectorNorm (minSnd vr) (maxSnd vr - minSnd vr) p.2)).sum *
        r.vector_weight := by
  rw [fuse_eq_foldl r hash vr br hv hb, scoreOf_fuse_foldl, scoreOf_fuse_foldl]
  have hfilter : br.filter (fun p => getStableDocKey hash p.1 = k) = [] := by
    rw [List.filter_eq_nil_iff]
    intro p hp hpk
    have hpk2 : getStableDocKey hash p.1 = k := by simpa using hpk
    exact hk (hpk2 ▸ List.mem_map_of_mem _ hp)
  rw [hfilter]
  simp only [List.map_nil, List.sum_nil, add_zero, scoreOf, zero_add]
  exact List.sum_map_mul_right _ _ _

/-- The fused score of a key never returned by the vector search is its
summed normalized lexical score times `bm25_weight`. -/
theorem fuse_score_bm25_only (r : HybridRetriever) (hash : String → String)
    (vr br : List (Document × ℚ)) (hv : vr ≠ []) (hb : br ≠ [])
    (k : String)
    (hk : k ∉ vr.map (fun p => getStableDocKey hash p.1)) :
    scoreOf (r.fuse hash vr br) k =
      ((br.filter (fun p => getStableDocKey hash p.1 = k)).map
        (fun p => p.2 / (maxSnd br + smoothEps))).sum * r.bm25_weight := by
  rw [fuse_eq_foldl r hash vr br hv hb, scoreOf_fuse_foldl, scoreOf_fuse_foldl]
  have hfilter : vr.filter (fun p => getStableDocKey hash p.1 = k) = [] := by
    rw [List.filter_eq_nil_iff]
    intro p hp hpk
    have hpk2 : getStableDocKey hash p.1 = k := by simpa using hpk
    exact hk (hpk2 ▸ List.mem_map_of_mem _ hp)
  rw [hfilter]
  simp only [List.map_nil, List.sum_nil, add_zero, scoreOf, zero_add]
  rw [← List.sum_map_mul_right]

/-- Every key of the fused dictionary came from one of the two result
lists. -/
theorem mem_keys_fuse (r : HybridRetriever) (hash : String → String)
    (vr br : List (Document × ℚ)) (k : String)
    (hk : k ∈ entryKeys (r.fuse hash vr br)) :
    k ∈ vr.map (fun p => getStableDocKey hash p.1) ∨
    k ∈ br.map (fun p => getStableDocKey hash p.1) := by
  unfold HybridRetriever.fuse at hk
  by_cases hv : vr = []
  · by_cases hb : br = []
    · simp only [if_pos hv, if_pos hb] at hk
      cases hk
    · simp only [if_pos hv, if_neg hb] at hk
      rcases (mem_entryKeys_foldl hash br _ [] k).mp hk with h | h
      · cases h
      · exact Or.inr h
  · by_cases hb : br = []
    · simp only [if_neg hv, if_pos hb] at hk
      rcases (mem_entryKeys_foldl hash vr _ [] k).mp hk with h | h
      · cases h
      · exact Or.inl h
    · simp only [if_neg hv, if_neg hb] at hk
      rcases (mem_entryKeys_foldl hash br _ _ k).mp hk with h | h
      · rcases (mem_entryKeys_foldl hash vr _ [] k).mp h with h2 | h2
        · cases h2
        · exact Or.inl h2
      · exact Or.inr h

/-- The stable key of any document in the candidate list is a key of the
fused dictionary. -/
theorem key_mem_of_mem_candidateDocs (r : HybridRetriever)
    (hash : String → String) (vr br : List (Document × ℚ)) (d : Document)
    (hd : d ∈ r.candidateDocs hash vr br) :
    getStableDocKey hash d ∈ entryKeys (r.fuse hash vr br) := by
  unfold HybridRetriever.candidateDocs HybridRetriever.sortedCandidates at hd
  obtain ⟨v, hvmem, hveq⟩ := List.mem_map.mp hd
  have hv2 : v ∈ (r.fuse hash vr br).map (fun e => e.2) :=
    (sortDesc_perm (fun x => x.2) _).subset hvmem
  obtain ⟨e, he, heq⟩ := List.mem_map.mp hv2
  have hk := (fuse_wellKeyed r hash vr br).1 e he
  have : getStableDocKey hash d = e.1 := by
    rw [hk, ← hveq, ← heq]
  rw [this]
  exact List.mem_map_of_mem _ he

theorem pair_sublist_map_inv {α β : Type _} {f : α → β} {l : List α}
    {b1 b2 : β} (h : [b1, b2].Sublist (l.map f)) :
    ∃ a1 a2, [a1, a2].Sublist l ∧ f a1 = b1 ∧ f a2 = b2 := by
  obtain ⟨l', hl', heq⟩ := List.sublist_map_iff.mp h
  cases l' with
  | nil => simp at heq
  | cons a1 rest =>
      cases rest with
      | nil => simp at heq
      | cons a2 rest2 =>
          cases rest2 with
          | cons a3 rest3 => simp at heq
          | nil =>
              simp only [List.map_cons, List.map_nil, List.cons.injEq,
                and_true] at heq
              obtain ⟨h1, h2⟩ := heq
              exact ⟨a1, a2, hl', h1.symm, h2.symm⟩

/-- C9.  Weight monotonicity: fix the stable hash and both raw sub-search
result lists (hence all normalized scores).  Take a chunk `dV` returned
only by the vector search and a chunk `dL` returned only by the lexical
search.  If `dV` ranks no worse than `dL` in the fused ordering of
`HybridRetriever.search` (i.e. `dV` appears before `dL` in the sorted
candidate list), then raising `vector_weight` — `bm25_weight` and
everything else held fixed — keeps `dV` no worse than `dL`. -/
theorem search_weight_monotonicity (r : HybridRetriever)
    (hash : String → String) (vr br : List (Document × ℚ))
    (dV dL : Document) (w' : ℚ) (hw : r.vector_weight ≤ w')
    (hVonly : getStableDocKey hash dV ∉
      br.map (fun p => getStableDocKey hash p.1))
    (hLonly : getStableDocKey hash dL ∉
      vr.map (fun p => getStableDocKey hash p.1))
    (horder : [dV, dL].Sublist (r.candidateDocs hash vr br)) :
    [dV, dL].Sublist
      (HybridRetriever.candidateDocs { r with vector_weight := w' }
        hash vr br) := by
  have hwk := fuse_wellKeyed r hash vr br
  -- the two documents are in the candidate list, so their keys are in the map
  have hdV : dV ∈ r.candidateDocs hash vr br :=
    horder.subset (List.mem_cons_self _ _)
  have hdL : dL ∈ r.candidateDocs hash vr br :=
    horder.subset (List.mem_cons_of_mem _ (List.mem_cons_self _ _))
  have hkVm := key_mem_of_mem_candidateDocs r hash vr br dV hdV
  have hkLm := key_mem_of_mem_candidateDocs r hash vr br dL hdL
  have hkVvr : getStableDocKey hash dV ∈
      vr.map (fun p => getStableDocKey hash p.1) :=
    (mem_keys_fuse r hash vr br _ hkVm).resolve_right hVonly
  have hkLbr : getStableDocKey hash dL ∈
      br.map (fun p => getStableDocKey hash p.1) :=
    (mem_keys_fuse r hash vr br _ hkLm).resolve_left hLonly
  have hv : vr ≠ [] := by
    intro h; rw [h] at hkVvr; cases hkVvr
  have hb : br ≠ [] := by
    intro h; rw [h] at hkLbr; cases hkLbr
  -- invert the order hypothesis to value pairs and then to entries of the map
  unfold HybridRetriever.candidateDocs HybridRetriever.sortedCandidates
    at horder
  obtain ⟨v1, v2, hsub, hv1d, hv2d⟩ := pair_sublist_map_inv horder
  have hpw : v2.2 ≤ v1.2 := by
    have hpws := (sortDesc_pairwise (fun x => x.2)
      ((r.fuse hash vr br).map (fun e => e.2))).sublist hsub
    exact (List.pairwise_cons.mp hpws).1 v2 (List.mem_cons_self _ _)
  have hv1m : v1 ∈ (r.fuse hash vr br).map (fun e => e.2) :=
    (sortDesc_perm (fun x => x.2) _).subset (hsub.subset (List.mem_cons_self _ _))
  have hv2m : v2 ∈ (r.fuse hash vr br).map (fun e => e.2) :=
    (sortDesc_perm (fun x => x.2) _).subset
      (hsub.subset (List.mem_cons_of_mem _ (List.mem_cons_self _ _)))
  obtain ⟨e1, he1, he1v⟩ := List.mem_map.mp hv1m
  obtain ⟨e2, he2, he2v⟩ := List.mem_map.mp hv2m
  have hk1 : e1.1 = getStableDocKey hash dV := by
    rw [hwk.1 e1 he1, he1v, hv1d]
  have hk2 : e2.1 = getStableDocKey hash dL := by
    rw [hwk.1 e2 he2, he2v, hv2d]
  -- fused scores of the two keys, at the original weight
  have hscoreV : scoreOf (r.fuse hash vr br) (getStableDocKey hash dV) = v1.2 := by
    rw [← hk1, scoreOf_eq_of_mem _ e1 he1 hwk.2, he1v]
  have hscoreL : scoreOf (r.fuse hash vr br) (getStableDocKey hash dL) = v2.2 := by
    rw [← hk2, scoreOf_eq_of_mem _ e2 he2 hwk.2, he2v]
  have hSV := fuse_score_vector_only r hash vr br hv hb
    (getStableDocKey hash dV) hVonly
  have hSL := fuse_score_bm25_only r hash vr br hv hb
    (getStableDocKey hash dL) hLonly
  have hSVnn : 0 ≤ ((vr.filter
      (fun p => getStableDocKey hash p.1 = getStableDocKey hash dV)).map
      (fun p => vectorNorm (minSnd vr) (maxSnd vr - minSnd vr) p.2)).sum :=
    List.sum_nonneg (fun x hx => by
      obtain ⟨p, hp, hpx⟩ := List.mem_map.mp hx
      rw [← hpx]
      exact vectorNorm_nonneg vr p (List.mem_of_mem_filter hp))
  -- the map at the new weight: same keys and documents, new scores
  have hwk' := fuse_wellKeyed { r with vector_weight := w' } hash vr br
  have hshape : entryShape
      (HybridRetriever.fuse { r with vector_weight := w' } hash vr br) =
      entryShape (r.fuse hash vr br) :=
    fuse_shape_congr r w' r.bm25_weight hash vr br
  have hkeys' : entryKeys
      (HybridRetriever.fuse { r with vector_weight := w' } hash vr br) =
      entryKeys (r.fuse hash vr br) := by
    rw [entryKeys_eq_shape_map, entryKeys_eq_shape_map, hshape]
  -- locate the two entries in the new map
  have hsh1 : ((getStableDocKey hash dV, dV) : String × Document) ∈
      entryShape (HybridRetriever.fuse { r with vector_weight := w' } hash vr br) := by
    rw [hshape]
    have : ((e1.1, e1.2.1) : String × Document) ∈ entryShape (r.fuse hash vr br) :=
      List.mem_map_of_mem _ he1
    rw [hk1] at this
    rw [show e1.2.1 = dV from by rw [he1v, hv1d]] at this
    exact this
  have hsh2 : ((getStableDocKey hash dL, dL) : String × Document) ∈
      entryShape (HybridRetriever.fuse { r with vector_weight := w' } hash vr br) := by
    rw [hshape]
    have : ((e2.1, e2.2.1) : String × Document) ∈ entryShape (r.fuse hash vr br) :=
      List.mem_map_of_mem _ he2
    rw [hk2] at this
    rw [show e2.2.1 = dL from by rw [he2v, hv2d]] at this
    exact this
  obtain ⟨e1', he1', he1'eq⟩ := List.mem_map.mp hsh1
  obtain ⟨e2', he2', he2'eq⟩ := List.mem_map.mp hsh2
  rw [Prod.mk.injEq] at he1'eq he2'eq
  -- scores at the new weight
  have hscoreV' : scoreOf
      (HybridRetriever.fuse { r with vector_weight := w' } hash vr br)
      (getStableDocKey hash dV) =
      ((vr.filter
        (fun p => getStableDocKey hash p.1 = getStableDocKey hash dV)).map
        (fun p => vectorNorm (minSnd vr) (maxSnd vr - minSnd vr) p.2)).sum * w' :=
    fuse_score_vector_only { r with vector_weight := w' } hash vr br hv hb
      (getStableDocKey hash dV) hVonly
  have hscoreL' : scoreOf
      (HybridRetriever.fuse { r with vector_weight := w' } hash vr br)
      (getStableDocKey hash dL) =
      scoreOf (r.fuse hash vr br) (getStableDocKey hash dL) := by
    rw [fuse_score_bm25_only { r with vector_weight := w' } hash vr br hv hb
      (getStableDocKey hash dL) hLonly, hSL]
  -- the score comparison carries over to the new weight
  have he1'score : e1'.2.2 = scoreOf
      (HybridRetriever.fuse { r with vector_weight := w' } hash vr br)
      (getStableDocKey hash dV) := by
    rw [← he1'eq.1, scoreOf_eq_of_mem _ e1' he1' hwk'.2]
  have he2'score : e2'.2.2 = scoreOf
      (HybridRetriever.fuse { r with vector_weight := w' } hash vr br)
      (getStableDocKey hash dL) := by
    rw [← he2'eq.1, scoreOf_eq_of_mem _ e2' he2' hwk'.2]
  have hcompare : e2'.2.2 ≤ e1'.2.2 := by
    rw [he1'score, he2'score, hscoreV', hscoreL', hscoreL]
    calc v2.2 ≤ v1.2 := hpw
      _ = _ * r.vector_weight := by rw [← hscoreV, hSV]
      _ ≤ _ * w' := mul_le_mul_of_nonneg_left hw hSVnn
  -- order of the two keys inside the new map
  have hkVM1 : getStableDocKey hash dV ∈ entryKeys
      (vr.foldl (fun m p => addScore m (getStableDocKey hash p.1) p.1
        (vectorNorm (minSnd vr) (maxSnd vr - minSnd vr) p.2 * r.vector_weight))
        []) := by
    rw [fuse_eq_foldl r hash vr br hv hb] at hkVm
    rcases (mem_entryKeys_foldl hash br _ _ _).mp hkVm with h | h
    · exact h
    · exact absurd h hVonly
  have hkLM1 : getStableDocKey hash dL ∉ entryKeys
      (vr.foldl (fun m p => addScore m (getStableDocKey hash p.1) p.1
        (vectorNorm (minSnd vr) (maxSnd vr - minSnd vr) p.2 * r.vector_weight))
        []) := by
    intro h
    rcases (mem_entryKeys_foldl hash vr _ [] _).mp h with h2 | h2
    · cases h2
    · exact hLonly h2
  have hkpair : [getStableDocKey hash dV, getStableDocKey hash dL].Sublist
      (entryKeys (r.fuse hash vr br)) := by
    obtain ⟨ks, hks⟩ := entryKeys_foldl_prefix hash br
      (fun p => p.2 / (maxSnd br + smoothEps) * r.bm25_weight)
      (vr.foldl (fun m p => addScore m (getStableDocKey hash p.1) p.1
        (vectorNorm (minSnd vr) (maxSnd vr - minSnd vr) p.2 * r.vector_weight))
        [])
    rw [fuse_eq_foldl r hash vr br hv hb, hks]
    have hkLks : getStableDocKey hash dL ∈ ks := by
      have := hkLm
      rw [fuse_eq_foldl r hash vr br hv hb, hks] at this
      rcases List.mem_append.mp this with h | h
      · exact absurd h hkLM1
      · exact h
    exact List.Sublist.append (List.singleton_sublist.mpr hkVM1)
      (List.singleton_sublist.mpr hkLks)
  have hpair : [e1', e2'].Sublist
      (HybridRetriever.fuse { r with vector_weight := w' } hash vr br) := by
    refine pair_sublist_of_keys _ e1' e2' he1' he2' hwk'.2 ?_
    rw [he1'eq.1, he2'eq.1, hkeys']
    exact hkpair
  -- sort the new map: stability keeps the pair in order
  have hvals' : [e1'.2, e2'.2].Sublist
      ((HybridRetriever.fuse { r with vector_weight := w' } hash vr br).map
        (fun e => e.2)) := by
    simpa using hpair.map (fun e => e.2)
  have hsorted' := pair_sublist_sortDesc (fun x => x.2) hvals' hcompare
  have hfinal := hsorted'.map (fun x => x.1)
  unfold HybridRetriever.candidateDocs HybridRetriever.sortedCandidates
  simp only [List.map_cons, List.map_nil] at hfinal
  rw [show e1'.2.1 = dV from he1'eq.2, show e2'.2.1 = dL from he2'eq.2] at hfinal
  exact hfinal

/-- C9 witness: with `vector_weight = 1/2` the vector-only chunk `docA`
ranks ahead of the lexical-only chunk `docB`; raising `vector_weight` to
`2` keeps it ahead. -/
theorem search_weight_monotonicity_witness :
    [docA, docB].Sublist
      (HybridRetriever.candidateDocs { monoRetriever with vector_weight := 2 }
        hashId [(docA, 1)] [(docB, 3)]) := by
  have hAB : getStableDocKey hashId docA ≠ getStableDocKey hashId docB := by decide
  have hBA : getStableDocKey hashId docB ≠ getStableDocKey hashId docA := by decide
  refine search_weight_monotonicity monoRetriever hashId [(docA, 1)] [(docB, 3)]
    docA docB 2 (by norm_num [monoRetriever]) (by simp [hAB]) (by simp [hBA]) ?_
  have hcand : monoRetriever.candidateDocs hashId [(docA, 1)] [(docB, 3)] =
      [docA, docB] := by
    norm_num [HybridRetriever.candidateDocs, HybridRetriever.sortedCandidates,
      HybridRetriever.fuse, addScore, sortDesc, insertDesc, vectorNorm,
      maxSnd, minSnd, smoothEps, monoRetriever, hAB, hBA, max_def, min_def]
  rw [hcand]
